import Mathlib

/-!
# Verification of the grunner test orchestrator

A shallow embedding of the core of the `grunner` parallel test runner:
the bounded-concurrency scheduler (`tryStartExecutors`, src/executors.go),
the orchestration loop's message handlers (`model.Update`, src/main.go),
the per-run output classifier (`runTestCase`, src/executors.go), the
build operation's file effects (`buildTestCase`, src/executors.go), and
the per-test statistics (`testInfo.AverageTime` / `TimeElapsed`,
src/testcase.go).

Go `time.Duration` values (int64 nanoseconds) and Go `int` are modelled
as `Int`; list indices and iteration counters as `Nat`.  Strings and
byte buffers are modelled as `List Char`.
-/

namespace Grunner

/-- One measured attempt of a test (`testIteration` in src/testcase.go). -/
structure TestIteration where
  passed : Bool := false
  startTime : Int := 0
  timeSpanned : Int := 0
deriving DecidableEq, Repr

/-- The per-test lifecycle state (`TestState` in src/testcase.go). -/
inductive TestState where
  | waiting
  | building
  | compileFailure
  | running
  | success
  | failure
deriving DecidableEq, Repr

/-- One unit under test (`testInfo` in src/testcase.go).  The stopwatch and
the stored error are omitted: no claim depends on them. -/
structure TestInfo where
  id : Nat := 0
  name : List Char := []
  filePath : List Char := []
  running : Bool := false
  resolved : Bool := false
  iterations : List TestIteration := []
  currIter : Nat := 0
  state : TestState := .waiting
deriving DecidableEq, Repr

/-- The orchestrator's state (`model` in src/main.go), restricted to the
fields the handlers under verification read or write. -/
structure Model where
  testCases : List TestInfo := []
  maxThreads : Int := 0
  timeCap : Int := 0
deriving DecidableEq, Repr

/-- Point update of a list, the embedding of `m.testCases[i] = ...`
assignments.  Out-of-range indices leave the list unchanged (Go would
panic there; all uses are guarded by in-range facts). -/
def updateAt {α : Type} : List α → Nat → (α → α) → List α
  | [], _, _ => []
  | x :: xs, 0, f => f x :: xs
  | x :: xs, n + 1, f => x :: updateAt xs n f

theorem updateAt_length {α : Type} (l : List α) (i : Nat) (f : α → α) :
    (updateAt l i f).length = l.length := by
  induction l generalizing i with
  | nil => rfl
  | cons x xs ih =>
    cases i with
    | zero => rfl
    | succ n => simp [updateAt, ih]

theorem updateAt_get?_self {α : Type} (l : List α) (i : Nat) (f : α → α) :
    (updateAt l i f).get? i = (l.get? i).map f := by
  induction l generalizing i with
  | nil => cases i <;> rfl
  | cons x xs ih =>
    cases i with
    | zero => rfl
    | succ n => simpa [updateAt] using ih n

theorem updateAt_get?_ne {α : Type} (l : List α) (i j : Nat) (f : α → α)
    (h : i ≠ j) : (updateAt l i f).get? j = l.get? j := by
  induction l generalizing i j with
  | nil => cases j <;> rfl
  | cons x xs ih =>
    cases i with
    | zero =>
      cases j with
      | zero => exact absurd rfl h
      | succ m => rfl
    | succ n =>
      cases j with
      | zero => rfl
      | succ m =>
        simpa [updateAt] using ih n m (fun hnm => h (by omega))

/-- `timeDiff` from src/utils.go. -/
def timeDiff (a b : Int) : Int := if a > b then a - b else b - a

/-- `testInfo.TimeElapsed` from src/testcase.go: the sum of all recorded
iteration durations. -/
def timeElapsed (t : TestInfo) : Int :=
  t.iterations.foldl (fun acc it => acc + it.timeSpanned) 0

/-- `testInfo.AverageTime` from src/testcase.go: sums and counts the
iterations with positive duration in one pass, returns 0 for an empty
count, and otherwise truncates the mean to whole milliseconds. -/
def averageTime (t : TestInfo) : Int :=
  let tc := t.iterations.foldl
    (fun (p : Int × Int) it =>
      if it.timeSpanned > 0 then (p.1 + it.timeSpanned, p.2 + 1) else p)
    (0, 0)
  if tc.2 = 0 then 0 else tc.1 / tc.2 / 1000000 * 1000000

/-- The count of tests currently marked `running`, the quantity the
concurrency invariant bounds. -/
def countRunning (ts : List TestInfo) : Nat :=
  (ts.filter (·.running)).length

/-- The first loop of `tryStartExecutors` (src/executors.go:263-270):
start from `maxThreads` and decrement once per running test. -/
def threadsLeftInit (m : Model) : Int :=
  m.testCases.foldl (fun tl t => if t.running then tl - 1 else tl) m.maxThreads

/-- The scan loop of `tryStartExecutors` (src/executors.go:272-282):
walk the tests in index order; each `Waiting` test is appended to the
admission list and decrements the budget; the loop exits as soon as the
budget is exactly zero *after* handling a test. -/
def tryStartLoop : List TestInfo → Nat → Int → List Nat
  | [], _, _ => []
  | t :: rest, i, tl =>
    if t.state = .waiting then
      if tl - 1 = 0 then [i]
      else i :: tryStartLoop rest (i + 1) (tl - 1)
    else
      if tl = 0 then []
      else tryStartLoop rest (i + 1) tl

/-- `tryStartExecutors` from src/executors.go: the scheduler, a pure
function of the model snapshot producing the list of test indices to
admit (the payload of the `buildTestMsg` message). -/
def tryStartExecutors (m : Model) : List Nat :=
  tryStartLoop m.testCases 0 (threadsLeftInit m)

/-- The messages consumed by `model.Update` (src/main.go) that drive the
test lifecycle.  UI messages (key presses, spinner and stopwatch ticks,
window sizing) do not touch the lifecycle fields and are omitted. -/
inductive Msg where
  | buildTestMsg (ids : List Nat)
  | testBuildErr (id : Nat)
  | testBuildSuccess (id : Nat)
  | testRunError (id : Nat)
  | testRunSuccess (id : Nat)
deriving DecidableEq, Repr

/-- An asynchronous operation the handlers spawn (`tea.Cmd` values):
a per-test build, a per-test run, or a scheduler pass. -/
inductive PendingOp where
  | sched
  | build (id : Nat)
  | run (id : Nat)
deriving DecidableEq, Repr

/-- `resolveTestCase` from src/main.go:138-145: mark resolved, clear
`running`, truncate the iterations to the attempts actually executed.
(The scheduler pass it also spawns is returned by the caller.) -/
def resolveTest (t : TestInfo) : TestInfo :=
  { t with resolved := true, running := false,
           iterations := t.iterations.take (t.currIter + 1) }

/-- Record the just-completed iteration's verdict and duration
(src/main.go:191,195 and 211,214). -/
def recordIteration (t : TestInfo) (passed : Bool) (now : Int) : TestInfo :=
  { t with iterations := updateAt t.iterations t.currIter
             (fun it => { it with passed := passed,
                                  timeSpanned := timeDiff it.startTime now }) }

/-- Advance to the next iteration and stamp its start time
(src/main.go:205-206 and 225-226). -/
def advanceIter (t : TestInfo) (now : Int) : TestInfo :=
  { t with currIter := t.currIter + 1,
           iterations := updateAt t.iterations (t.currIter + 1)
             (fun it => { it with startTime := now }) }

/-- The shared tail of the `testRunError` / `testRunSuccess` handlers
(src/main.go:189-228): record the verdict, then either resolve (when the
current iteration is the last or the cumulative duration exceeds the
time cap) or launch the next iteration. -/
def runStep (m : Model) (i : Nat) (ok : Bool) (now : Int) :
    Model × List PendingOp :=
  match m.testCases.get? i with
  | none => (m, [])
  | some t =>
    let t1 := recordIteration t ok now
    let t1 := if ok then t1 else { t1 with state := .failure }
    if (t1.currIter : Int) = (t1.iterations.length : Int) - 1 ∨
        timeElapsed t1 > m.timeCap then
      let t2 := resolveTest t1
      let t2 := if ok then
          (if t2.state ≠ .failure then { t2 with state := .success } else t2)
        else t2
      ({ m with testCases := updateAt m.testCases i (fun _ => t2) }, [.sched])
    else
      ({ m with testCases := updateAt m.testCases i (fun _ => advanceIter t1 now) },
       [.run i])

/-- The lifecycle cases of `model.Update` (src/main.go:147-254), as a
state transformer returning the successor model and the asynchronous
operations spawned (stopwatch and spinner commands omitted). -/
def update (m : Model) (msg : Msg) (now : Int) : Model × List PendingOp :=
  match msg with
  | .buildTestMsg ids =>
    ({ m with testCases := ids.foldl
                 (fun ts j => updateAt ts j
                   (fun t => { t with state := .building, running := true }))
                 m.testCases },
     ids.map (fun j => .build j))
  | .testBuildErr i =>
    ({ m with testCases := updateAt m.testCases i
                 (fun t => resolveTest { t with state := .compileFailure }) },
     [.sched])
  | .testBuildSuccess i =>
    ({ m with testCases := updateAt m.testCases i
                 (fun t => { t with state := .running,
                                    iterations := updateAt t.iterations t.currIter
                                      (fun it => { it with startTime := now }) }) },
     [.run i])
  | .testRunError i => runStep m i false now
  | .testRunSuccess i => runStep m i true now

/-! ## Claim C10: `AverageTime` -/

theorem averageTime_foldl (l : List TestIteration) (a c : Int) :
    l.foldl (fun (p : Int × Int) it =>
        if it.timeSpanned > 0 then (p.1 + it.timeSpanned, p.2 + 1) else p) (a, c) =
      (a + ((l.filter (fun it => it.timeSpanned > 0)).map (·.timeSpanned)).sum,
       c + ((l.filter (fun it => it.timeSpanned > 0)).length : Int)) := by
  induction l generalizing a c with
  | nil => simp
  | cons x xs ih =>
    by_cases h : x.timeSpanned > 0
    · simp only [List.foldl_cons, if_pos h, ih, List.filter_cons,
        decide_eq_true_eq, h, if_pos, List.map_cons, List.sum_cons,
        List.length_cons]
      rw [Prod.mk.injEq]
      refine ⟨by ring, by push_cast; ring⟩
    · simp only [List.foldl_cons, if_neg h, ih, List.filter_cons,
        decide_eq_true_eq, h, if_neg, List.map_cons, List.sum_cons,
        List.length_cons]
      simp [h]

/-- C10: `AverageTime` never divides by zero: it returns 0 when no
iteration has a positive recorded duration, and otherwise the mean of
only the positive durations, truncated (integer division by the count,
then to whole milliseconds, 1 ms = 1000000 ns). -/
theorem C10_averageTime (t : TestInfo) :
    averageTime t =
      if (t.iterations.filter (fun it => it.timeSpanned > 0)) = [] then 0
      else ((t.iterations.filter (fun it => it.timeSpanned > 0)).map
              (·.timeSpanned)).sum
             / ((t.iterations.filter (fun it => it.timeSpanned > 0)).length : Int)
             / 1000000 * 1000000 := by
  unfold averageTime
  rw [averageTime_foldl]
  simp only [zero_add]
  by_cases h : (t.iterations.filter (fun it => it.timeSpanned > 0)) = []
  · simp [h]
  · have hlen : (t.iterations.filter (fun it => it.timeSpanned > 0)).length ≠ 0 := by
      simpa [List.length_eq_zero] using h
    simp only [if_neg h]
    rw [if_neg (by exact_mod_cast hlen)]

/-! ## Output filtering (`runTestCase`, src/executors.go:92-94 and 175-191)

The ANSI pattern `ansi` of src/executors.go is
`[\x1B\x9B][[\]()#;?]*(?:(?:(?:[a-zA-Z\d]*(?:;[a-zA-Z\d]*)*)?\x07)|(?:(?:\d{1,4}(?:;\d{0,4})*)?[\dA-PRZcf-ntqry=><~]))`.
It is embedded as a backtracking matcher in continuation-passing style
with Go's (non-POSIX) leftmost-first preference: alternatives are tried
left to right and repetitions greedily.  Every starred body consumes at
least one character, so fuel equal to the string length makes the fueled
recursion exhaustive. -/

def listPrefixOf : List Char → List Char → Bool
  | [], _ => true
  | _ :: _, [] => false
  | a :: as, b :: bs => a == b && listPrefixOf as bs

/-- Go `strings.Contains hay needle`. -/
def containsSub : List Char → List Char → Bool
  | [], needle => listPrefixOf needle []
  | c :: rest, needle => listPrefixOf needle (c :: rest) || containsSub rest needle

/-- Go `strings.Split s "\n"`. -/
def splitNl : List Char → List (List Char)
  | [] => [[]]
  | c :: cs =>
    if c = '\n' then [] :: splitNl cs
    else
      match splitNl cs with
      | l :: ls => (c :: l) :: ls
      | [] => [[c]]

def isBrk (c : Char) : Bool :=
  c == '[' || c == ']' || c == '(' || c == ')' || c == '#' || c == ';' || c == '?'

def isDigitG (c : Char) : Bool := decide ('0' ≤ c) && decide (c ≤ '9')

def isAlnumG (c : Char) : Bool :=
  (decide ('a' ≤ c) && decide (c ≤ 'z')) ||
  (decide ('A' ≤ c) && decide (c ≤ 'Z')) || isDigitG c

/-- The final-byte class `[\dA-PRZcf-ntqry=><~]`. -/
def isFinalG (c : Char) : Bool :=
  isDigitG c || (decide ('A' ≤ c) && decide (c ≤ 'P')) || c == 'R' || c == 'Z' ||
  c == 'c' || (decide ('f' ≤ c) && decide (c ≤ 'n')) || c == 't' || c == 'q' ||
  c == 'r' || c == 'y' || c == '=' || c == '>' || c == '<' || c == '~'

/-- Match one character of class `p`, then continue. -/
def mCharP (p : Char → Bool) (s : List Char)
    (k : List Char → Option (List Char)) : Option (List Char) :=
  match s with
  | c :: cs => if p c then k cs else none
  | [] => none

/-- Greedy Kleene star over an arbitrary body, with backtracking into the
continuation `k` (longest first). -/
def mStarB (body : List Char → (List Char → Option (List Char)) → Option (List Char)) :
    Nat → List Char → (List Char → Option (List Char)) → Option (List Char)
  | 0, s, k => k s
  | fuel + 1, s, k => (body s (fun s' => mStarB body fuel s' k)) <|> k s

/-- Greedy star over a character class. -/
def mStar (p : Char → Bool) (fuel : Nat) (s : List Char)
    (k : List Char → Option (List Char)) : Option (List Char) :=
  mStarB (mCharP p) fuel s k

/-- Greedy bounded repetition (at most `n`) over a character class. -/
def mRep (p : Char → Bool) : Nat → List Char → (List Char → Option (List Char)) → Option (List Char)
  | 0, s, k => k s
  | n + 1, s, k => (mCharP p s (fun s' => mRep p n s' k)) <|> k s

/-- `;[a-zA-Z\d]*`, the starred body inside the BEL alternative. -/
def semiAlnum (fuel : Nat) (s : List Char)
    (k : List Char → Option (List Char)) : Option (List Char) :=
  mCharP (· == ';') s (fun s' => mStar isAlnumG fuel s' k)

/-- The BEL alternative `(?:[a-zA-Z\d]*(?:;[a-zA-Z\d]*)*)?\x07`. -/
def altA (fuel : Nat) (s : List Char) : Option (List Char) :=
  mStar isAlnumG fuel s (fun s₁ =>
    mStarB (semiAlnum fuel) fuel s₁ (fun s₂ =>
      mCharP (· == '\x07') s₂ some))

/-- `;\d{0,4}`, the starred body inside the final-byte alternative. -/
def semiDigits (s : List Char)
    (k : List Char → Option (List Char)) : Option (List Char) :=
  mCharP (· == ';') s (fun s' => mRep isDigitG 4 s' k)

/-- The final-byte alternative `(?:\d{1,4}(?:;\d{0,4})*)?[\dA-PRZcf-ntqry=><~]`. -/
def altB (fuel : Nat) (s : List Char) : Option (List Char) :=
  (mCharP isDigitG s (fun s₁ =>
     mRep isDigitG 3 s₁ (fun s₂ =>
       mStarB (fun s₃ k => semiDigits s₃ k) fuel s₂ (fun s₄ =>
         mCharP isFinalG s₄ some)))) <|>
  mCharP isFinalG s some

/-- Attempt the ANSI pattern at the head of `s`: on success return the
remainder after the (leftmost-first preferred) match. -/
def ansiMatch : List Char → Option (List Char)
  | c :: cs =>
    if c == '\x1B' || c == '\x9B' then
      mStarB (mCharP isBrk) cs.length cs (fun s₁ =>
        altA cs.length s₁ <|> altB cs.length s₁)
    else none
  | [] => none

/-- `ansiRe.ReplaceAllString line ""`: scan left to right, deleting every
non-overlapping leftmost match. -/
def stripAnsiGo : Nat → List Char → List Char
  | 0, s => s
  | _ + 1, [] => []
  | fuel + 1, c :: cs =>
    match ansiMatch (c :: cs) with
    | some rest => stripAnsiGo fuel rest
    | none => c :: stripAnsiGo fuel cs

def stripAnsi (s : List Char) : List Char := stripAnsiGo s.length s

/-- The filter loop of `runTestCase` (src/executors.go:175-183): split the
captured output on newlines, strip escape sequences from each line, keep
the lines that then start with `***`, each re-terminated by a newline. -/
def filterOutput (out : List Char) : List Char :=
  (splitNl out).foldl
    (fun acc line =>
      if listPrefixOf ("***".data) (stripAnsi line) then
        acc ++ stripAnsi line ++ ['\n']
      else acc)
    []

/-! ## Claim C5: filter correctness -/

theorem filterOutput_foldl_join (ls : List (List Char)) (acc : List Char) :
    ls.foldl
      (fun acc line =>
        if listPrefixOf ("***".data) (stripAnsi line) then
          acc ++ stripAnsi line ++ ['\n']
        else acc) acc =
    acc ++ (ls.filterMap (fun line =>
      if listPrefixOf ("***".data) (stripAnsi line) then
        some (stripAnsi line ++ ['\n'])
      else none)).flatten := by
  induction ls generalizing acc with
  | nil => simp
  | cons l ls ih =>
    by_cases h : listPrefixOf ("***".data) (stripAnsi l)
    · rw [List.foldl_cons, if_pos h, ih]
      simp only [List.filterMap_cons, if_pos h, List.flatten_cons]
      simp [List.append_assoc]
    · rw [List.foldl_cons, if_neg h, ih]
      simp only [List.filterMap_cons, if_neg h]

/-- C5: the output filter is the pure function that splits the captured
stdout into lines, strips escape sequences from each line, keeps exactly
the lines that then begin with `***` and concatenates them
newline-terminated; on the lines `["*** A", "garbage",
"\x1B[31m*** B\x1B[0m"]` it yields exactly `"*** A\n*** B\n"`. -/
theorem C5_filterOutput :
    (∀ s : List Char, filterOutput s =
      ((splitNl s).filterMap (fun line =>
        if listPrefixOf ("***".data) (stripAnsi line) then
          some (stripAnsi line ++ ['\n'])
        else none)).flatten) ∧
    filterOutput ("*** A\ngarbage\n\x1B[31m*** B\x1B[0m".data) =
      ("*** A\n*** B\n".data) := by
  constructor
  · intro s
    unfold filterOutput
    rw [filterOutput_foldl_join]
    simp
  · decide

/-! ## The run and build operations (`runTestCase` / `buildTestCase`,
src/executors.go)

`runTestCase` is an asynchronous task: it starts the sandbox, streams
stdout to `<name>.raw`, classifies the outcome and writes side files.
Its embedding is a pure function of the test snapshot captured at
command-creation time (`testCase` is passed by value) and of an
environment record collecting what the external world did: whether the
I/O steps failed, the captured stdout/stderr bytes, the process wait
outcome, whether the per-iteration deadline expired, and the result of
the external `diff` invocation. -/

/-- Outcome of `qemuCmd.Wait()`: `ok` is a nil error (exit status 0),
`exit c` an `exec.ExitError` with exit code `c`, `otherErr` any other
non-nil error. -/
inductive WaitRes where
  | ok
  | exit (code : Int)
  | otherErr
deriving DecidableEq, Repr

/-- The distinct messages `runTestCase` can return, one per `return`
site, preserving source order.  `panicked` stands for the
`log.Panicf("tried running an already resolved test ...")` process
abort. -/
inductive RunVerdict where
  | rawCreateError
  | launchTimeout
  | launchFailure
  | rawWriteError
  | emptyOutput
  | outWriteError
  | timeout
  | crash (stderrBytes : List Char)
  | stderrCrash (stderrBytes : List Char)
  | diffWriteError
  | unimplemented
  | diffMismatch
  | panicked
  | exitCrash (code : Int)
  | waitError
  | failStringError
  | success
deriving DecidableEq, Repr

/-- Everything the external world contributes to one run. -/
structure RunEnv where
  rawCreateFail : Bool := false
  startCtxErr : Bool := false
  startErr : Bool := false
  copyErr : Bool := false
  rawOut : List Char := []
  waitCtxErr : Bool := false
  waitRes : WaitRes := .ok
  stderrOut : List Char := []
  diffFails : Bool := false
  diffOut : List Char := []
  diffWriteFail : Bool := false
  outWriteFail : Bool := false
deriving DecidableEq, Repr

/-- A file-system or process side effect of a build or run operation. -/
inductive FsOp where
  | removeFile (path : List Char)
  | createFile (path : List Char)
  | writeFile (path : List Char)
  | execMake (targets : List (List Char))
  | execDiff (stdin : List Char) (target : List Char)
deriving DecidableEq, Repr

/-- `testExtRe.ReplaceAllString filePath ".ok"` with
`testExtRe = \.(cc|dir)$` (src/utils.go:16): the golden-file path. -/
def okPath (fp : List Char) : List Char :=
  if listPrefixOf (".cc".data.reverse) fp.reverse then
    fp.take (fp.length - 3) ++ (".ok".data)
  else if listPrefixOf (".dir".data.reverse) fp.reverse then
    fp.take (fp.length - 4) ++ (".ok".data)
  else fp

def missingCodeMarker : List Char := "*** Missing code at".data

/-- `errors.As(err, &exitErr2) && exitErr2.ExitCode() != 1`
(src/executors.go:197-199). -/
def isBadExit : WaitRes → Bool
  | .exit c => c != 1
  | _ => false

/-- `runTestCase` (src/executors.go:96-252): the classifier together with
the file and process effects it performs, in source order.  `t` is the
snapshot of the test captured when the command was created. -/
def runEffsRaw (t : TestInfo) : List FsOp :=
  [FsOp.createFile (t.name ++ ".raw".data)]

def runEffsOut (t : TestInfo) : List FsOp :=
  runEffsRaw t ++ [FsOp.writeFile (t.name ++ ".out".data)]

def runEffsDiffed (t : TestInfo) (env : RunEnv) : List FsOp :=
  runEffsOut t ++ [FsOp.execDiff (filterOutput env.rawOut) (okPath t.filePath)]

def runEffsDiffFile (t : TestInfo) (dir : List Char) (env : RunEnv) : List FsOp :=
  runEffsDiffed t env ++
    [FsOp.writeFile (dir ++ "/".data ++ t.name ++ ".diff".data)]

def runTestCaseExec (t : TestInfo) (dir : List Char) (env : RunEnv) :
    RunVerdict × List FsOp :=
  if env.rawCreateFail then (.rawCreateError, [])
  else if env.startCtxErr then (.launchTimeout, runEffsRaw t)
  else if env.startErr then (.launchFailure, runEffsRaw t)
  else if env.copyErr then (.rawWriteError, runEffsRaw t)
  else if env.rawOut.length = 0 then (.emptyOutput, runEffsRaw t)
  else if env.outWriteFail then (.outWriteError, runEffsOut t)
  else if env.waitCtxErr then (.timeout, runEffsOut t)
  else if isBadExit env.waitRes then (.crash env.stderrOut, runEffsOut t)
  else if env.stderrOut.length > 0 then (.stderrCrash env.stderrOut, runEffsOut t)
  else if env.diffFails then
    if env.diffWriteFail then (.diffWriteError, runEffsDiffFile t dir env)
    else if containsSub env.rawOut missingCodeMarker then
      (.unimplemented, runEffsDiffFile t dir env)
    else (.diffMismatch, runEffsDiffFile t dir env)
  else if t.resolved then (.panicked, runEffsDiffed t env)
  else
    match env.waitRes with
    | .exit c =>
      if c = 1 then (.success, runEffsDiffed t env)
      else (.exitCrash c, runEffsDiffed t env)
    | .otherErr => (.waitError, runEffsDiffed t env)
    | .ok =>
      if env.diffOut.length > 0 ∨ containsSub env.rawOut ("fail".data) then
        (.failStringError, runEffsDiffed t env)
      else (.success, runEffsDiffed t env)

/-- `buildTestCase` (src/executors.go:53-84): remove the stale
`<name>.diff`, then invoke `make` with the test's name (and its `.data`
co-target when the Makefile mentions `.data`). -/
def buildTestCaseEffects (hasData : Bool) (t : TestInfo) : List FsOp :=
  [FsOp.removeFile (t.name ++ ".diff".data),
   FsOp.execMake (if hasData then [t.name, t.name ++ ".data".data] else [t.name])]

/-! ## Claims C6 and C7: empty output and exit-code classification -/

/-- C6: in a run where the sandbox started and stdout streaming
succeeded but zero bytes were captured, the classifier returns
`EmptyOutput` (a failed iteration, never `Success`) whatever the wait
outcome, the deadline, stderr and the diff did: the check precedes the
timeout, exit-code, stderr and diff checks. -/
theorem C6_emptyOutput (t : TestInfo) (dir : List Char) (env : RunEnv)
    (h1 : env.rawCreateFail = false) (h2 : env.startCtxErr = false)
    (h3 : env.startErr = false) (h4 : env.copyErr = false)
    (h5 : env.rawOut = []) :
    (runTestCaseExec t dir env).1 = .emptyOutput ∧
    (runTestCaseExec t dir env).1 ≠ .success := by
  unfold runTestCaseExec
  simp [h1, h2, h3, h4, h5]

theorem C6_emptyOutput_witness :
    ({ } : RunEnv).rawOut = [] ∧
    (runTestCaseExec { name := "t0".data } ("proj".data) { }).1 =
      RunVerdict.emptyOutput ∧
    (runTestCaseExec { name := "t0".data } ("proj".data) { }).1 ≠
      RunVerdict.success :=
  ⟨rfl, C6_emptyOutput _ _ _ rfl rfl rfl rfl rfl⟩

/-- C7: a completed, non-timed-out run whose process exit code is
non-zero and not 1 is classified as a crash carrying the captured
stderr; exit code exactly 1 is deliberate successful shutdown and can
classify as `Success` (witnessed by a concrete clean run). -/
theorem C7_exitCodes (t : TestInfo) (dir : List Char) (env : RunEnv) (c : Int)
    (h1 : env.rawCreateFail = false) (h2 : env.startCtxErr = false)
    (h3 : env.startErr = false) (h4 : env.copyErr = false)
    (h5 : env.rawOut ≠ []) (h6 : env.outWriteFail = false)
    (h7 : env.waitCtxErr = false) (h8 : env.waitRes = .exit c)
    (h9 : c ≠ 0) (h10 : c ≠ 1) :
    (runTestCaseExec t dir env).1 = .crash env.stderrOut ∧
    (runTestCaseExec { } [] { rawOut := "x".data, waitRes := .exit 1 }).1 =
      .success := by
  constructor
  · have hlen : ¬ env.rawOut.length = 0 := by
      simpa [List.length_eq_zero] using h5
    have hbad : isBadExit env.waitRes = true := by
      simp [isBadExit, h8, h10]
    unfold runTestCaseExec
    simp [h1, h2, h3, h4, hlen, h6, h7, hbad]
  · decide

theorem C7_exitCodes_witness :
    ({ rawOut := "x".data, waitRes := .exit 2 } : RunEnv).rawOut ≠ [] ∧
    (2 : Int) ≠ 0 ∧ (2 : Int) ≠ 1 ∧
    ((runTestCaseExec { } [] { rawOut := "x".data, waitRes := .exit 2 }).1 =
        .crash [] ∧
     (runTestCaseExec { } [] { rawOut := "x".data, waitRes := .exit 1 }).1 =
        .success) :=
  ⟨by decide, by decide, by decide,
   C7_exitCodes { } [] { rawOut := "x".data, waitRes := .exit 2 } 2
     rfl rfl rfl rfl (by decide) rfl rfl rfl (by decide) (by decide)⟩

/-! ## Claim C8: diff classification

The source checks the `*** Missing code at` marker in the *raw* captured
stdout (`output.String()`, src/executors.go:226), not in the filtered
transcript, and it writes the `.diff` file before the marker check, in
both branches. -/

def c8Test : TestInfo := { name := "t0".data, filePath := "t0.cc".data }

def c8Env : RunEnv :=
  { rawOut := "x*** Missing code at t0.cc:7\n".data, diffFails := true }

/-- C8 counterexample: a run whose raw stdout contains the marker only
on a line that does not begin with `***`, so the filtered transcript
does not contain the marker; the claim then requires `DiffMismatch`,
but the code returns `Unimplemented`. -/
theorem C8_counterexample :
    c8Env.diffFails = true ∧
    containsSub (filterOutput c8Env.rawOut) missingCodeMarker = false ∧
    (runTestCaseExec c8Test ("proj".data) c8Env).1 = .unimplemented := by
  refine ⟨rfl, ?_, ?_⟩ <;> decide

/-- C8 (amended): when the whitespace-tolerant diff between the filtered
transcript and the golden file (the source path with its `.cc`/`.dir`
extension replaced by `.ok`) reports a difference, the diff output is
persisted to the test's `.diff` file in both branches, and then the
verdict is `Unimplemented` when the *raw* captured stdout contains the
literal marker `*** Missing code at`, `DiffMismatch` otherwise. -/
theorem C8_diffClassification (t : TestInfo) (dir : List Char) (env : RunEnv)
    (h1 : env.rawCreateFail = false) (h2 : env.startCtxErr = false)
    (h3 : env.startErr = false) (h4 : env.copyErr = false)
    (h5 : env.rawOut ≠ []) (h6 : env.outWriteFail = false)
    (h7 : env.waitCtxErr = false) (h8 : isBadExit env.waitRes = false)
    (h9 : env.stderrOut = []) (h10 : env.diffFails = true)
    (h11 : env.diffWriteFail = false) :
    (containsSub env.rawOut missingCodeMarker = true →
       (runTestCaseExec t dir env).1 = .unimplemented) ∧
    (containsSub env.rawOut missingCodeMarker = false →
       (runTestCaseExec t dir env).1 = .diffMismatch) ∧
    FsOp.writeFile (dir ++ "/".data ++ t.name ++ ".diff".data) ∈
      (runTestCaseExec t dir env).2 ∧
    FsOp.execDiff (filterOutput env.rawOut) (okPath t.filePath) ∈
      (runTestCaseExec t dir env).2 := by
  have hlen : ¬ env.rawOut.length = 0 := by
    simpa [List.length_eq_zero] using h5
  unfold runTestCaseExec
  simp only [h1, h2, h3, h4, hlen, h6, h7, h8, h9, h10, h11,
    Bool.false_eq_true, if_false, if_true, List.length_nil, gt_iff_lt,
    lt_irrefl, ite_false, ite_true]
  by_cases hm : containsSub env.rawOut missingCodeMarker
  · simp [hm, runEffsDiffFile, runEffsDiffed, runEffsOut, runEffsRaw]
  · simp [hm, runEffsDiffFile, runEffsDiffed, runEffsOut, runEffsRaw]

theorem C8_diffClassification_witness :
    c8Env.diffFails = true ∧
    ((containsSub c8Env.rawOut missingCodeMarker = true →
        (runTestCaseExec c8Test ("proj".data) c8Env).1 = .unimplemented) ∧
     (containsSub c8Env.rawOut missingCodeMarker = false →
        (runTestCaseExec c8Test ("proj".data) c8Env).1 = .diffMismatch) ∧
     FsOp.writeFile (("proj".data) ++ "/".data ++ c8Test.name ++ ".diff".data) ∈
       (runTestCaseExec c8Test ("proj".data) c8Env).2 ∧
     FsOp.execDiff (filterOutput c8Env.rawOut) (okPath c8Test.filePath) ∈
       (runTestCaseExec c8Test ("proj".data) c8Env).2) :=
  ⟨rfl, C8_diffClassification c8Test ("proj".data) c8Env
    rfl rfl rfl rfl (by decide) rfl rfl rfl rfl rfl rfl⟩

/-! ## Claim C9: file-effect frame -/

/-- The path a file-system operation creates, writes or removes
(external process invocations touch no file directly). -/
def opTouched : FsOp → Option (List Char)
  | .removeFile p => some p
  | .createFile p => some p
  | .writeFile p => some p
  | .execMake _ => none
  | .execDiff _ _ => none

def touchedPaths (l : List FsOp) : List (List Char) := l.filterMap opTouched

/-- The durable side files belonging to test `u`: the raw capture, the
filtered transcript and the `.diff` file (the latter under both the
working directory and `dir`, the two spellings the source uses). -/
def outputFilesOf (u : TestInfo) (dir : List Char) : List (List Char) :=
  [u.name ++ ".raw".data, u.name ++ ".out".data, u.name ++ ".diff".data,
   dir ++ "/".data ++ u.name ++ ".diff".data]

theorem runTestCaseExec_effects_cases (t : TestInfo) (dir : List Char)
    (env : RunEnv) :
    (runTestCaseExec t dir env).2 = [] ∨
    (runTestCaseExec t dir env).2 = runEffsRaw t ∨
    (runTestCaseExec t dir env).2 = runEffsOut t ∨
    (runTestCaseExec t dir env).2 = runEffsDiffed t env ∨
    (runTestCaseExec t dir env).2 = runEffsDiffFile t dir env := by
  unfold runTestCaseExec
  by_cases h1 : env.rawCreateFail = true
  · rw [if_pos h1]; simp
  rw [if_neg h1]
  by_cases h2 : env.startCtxErr = true
  · rw [if_pos h2]; simp
  rw [if_neg h2]
  by_cases h3 : env.startErr = true
  · rw [if_pos h3]; simp
  rw [if_neg h3]
  by_cases h4 : env.copyErr = true
  · rw [if_pos h4]; simp
  rw [if_neg h4]
  by_cases h5 : env.rawOut.length = 0
  · rw [if_pos h5]; simp
  rw [if_neg h5]
  by_cases h6 : env.outWriteFail = true
  · rw [if_pos h6]; simp
  rw [if_neg h6]
  by_cases h7 : env.waitCtxErr = true
  · rw [if_pos h7]; simp
  rw [if_neg h7]
  by_cases h8 : isBadExit env.waitRes = true
  · rw [if_pos h8]; simp
  rw [if_neg h8]
  by_cases h9 : env.stderrOut.length > 0
  · rw [if_pos h9]; simp
  rw [if_neg h9]
  by_cases h10 : env.diffFails = true
  · rw [if_pos h10]
    by_cases h10a : env.diffWriteFail = true
    · rw [if_pos h10a]; simp
    rw [if_neg h10a]
    by_cases h10b : containsSub env.rawOut missingCodeMarker = true
    · rw [if_pos h10b]; simp
    · rw [if_neg h10b]; simp
  rw [if_neg h10]
  by_cases h11 : t.resolved = true
  · rw [if_pos h11]; simp
  rw [if_neg h11]
  rcases hw : env.waitRes with _ | c | _
  · by_cases h12 : env.diffOut.length > 0 ∨ containsSub env.rawOut ("fail".data) = true
    · simp [h12]
    · simp [h12]
  · by_cases h13 : c = 1
    · simp [h13]
    · simp [h13]
  · simp

theorem runTestCaseExec_effects_subset (t : TestInfo) (dir : List Char)
    (env : RunEnv) :
    ∀ op ∈ (runTestCaseExec t dir env).2,
      op = .createFile (t.name ++ ".raw".data) ∨
      op = .writeFile (t.name ++ ".out".data) ∨
      op = .execDiff (filterOutput env.rawOut) (okPath t.filePath) ∨
      op = .writeFile (dir ++ "/".data ++ t.name ++ ".diff".data) := by
  intro op hop
  rcases runTestCaseExec_effects_cases t dir env with h | h | h | h | h <;>
    rw [h] at hop <;>
    simp only [runEffsRaw, runEffsOut, runEffsDiffed, runEffsDiffFile,
      List.mem_append, List.mem_singleton, List.not_mem_nil] at hop <;>
    tauto

theorem append_suffix_cancel (a b s : List Char) (h : a ++ s = b ++ s) :
    a = b := by
  have hl : a.length = b.length := by
    have := congrArg List.length h
    simp only [List.length_append] at this
    omega
  exact (List.append_inj h hl).1

theorem append_ne_of_last_ne (a b s₁ s₂ : List Char) (c₁ c₂ : Char)
    (r₁ r₂ : List Char) (h₁ : s₁.reverse = c₁ :: r₁)
    (h₂ : s₂.reverse = c₂ :: r₂) (hc : c₁ ≠ c₂) : a ++ s₁ ≠ b ++ s₂ := by
  intro h
  have hr := congrArg List.reverse h
  rw [List.reverse_append, List.reverse_append, h₁, h₂] at hr
  simp only [List.cons_append] at hr
  exact hc (List.head_eq_of_cons_eq hr)

/-- C9: a build operation's first effect removes the test's own `.diff`
file, before the single `make` invocation; a run operation removes no
file; and every path either operation touches is one of the test's own
side files, hence never another test's output file. -/
theorem C9_fileFrame (t u : TestInfo) (dir : List Char) (env : RunEnv)
    (hasData : Bool) (hname : t.name ≠ u.name)
    (ht : '/' ∉ t.name) (hu : '/' ∉ u.name) :
    (∃ mkArgs, buildTestCaseEffects hasData t =
      [.removeFile (t.name ++ ".diff".data), .execMake mkArgs]) ∧
    (∀ op ∈ (runTestCaseExec t dir env).2, ∀ p, op ≠ .removeFile p) ∧
    (∀ p ∈ touchedPaths
        (buildTestCaseEffects hasData t ++ (runTestCaseExec t dir env).2),
      p ∉ outputFilesOf u dir) := by
  have hsub := runTestCaseExec_effects_subset t dir env
  refine ⟨⟨_, rfl⟩, ?_, ?_⟩
  · intro op hop p
    rcases hsub op hop with h | h | h | h <;> simp [h]
  · intro p hp
    have hp' : p = t.name ++ ".diff".data ∨ p = t.name ++ ".raw".data ∨
        p = t.name ++ ".out".data ∨
        p = dir ++ "/".data ++ t.name ++ ".diff".data := by
      simp only [touchedPaths, List.filterMap_append, List.mem_append] at hp
      rcases hp with hp | hp
      · have hbuild : List.filterMap opTouched (buildTestCaseEffects hasData t) =
            [t.name ++ ".diff".data] := rfl
        rw [hbuild] at hp
        simp only [List.mem_singleton] at hp
        exact Or.inl hp
      · rcases List.mem_filterMap.mp hp with ⟨op, hop, hto⟩
        rcases hsub op hop with h | h | h | h <;> subst h
        · simp only [opTouched, Option.some.injEq] at hto
          exact Or.inr (Or.inl hto.symm)
        · simp only [opTouched, Option.some.injEq] at hto
          exact Or.inr (Or.inr (Or.inl hto.symm))
        · exact Option.noConfusion hto
        · simp only [opTouched, Option.some.injEq] at hto
          exact Or.inr (Or.inr (Or.inr hto.symm))
    have hdiff_rev : (".diff".data : List Char).reverse =
        'f' :: ("fid.".data : List Char) := by decide
    have hraw_rev : (".raw".data : List Char).reverse =
        'w' :: ("ar.".data : List Char) := by decide
    have hout_rev : (".out".data : List Char).reverse =
        't' :: ("uo.".data : List Char) := by decide
    have memslash : ∀ x : List Char, '/' ∈ dir ++ "/".data ++ x := by
      intro x
      simp [List.mem_append]
    intro hmem
    simp only [outputFilesOf, List.mem_cons, List.not_mem_nil, or_false]
      at hmem
    rcases hp' with hp' | hp' | hp' | hp' <;> subst hp' <;>
      rcases hmem with h | h | h | h
    · exact append_ne_of_last_ne _ _ _ _ _ _ _ _ hdiff_rev hraw_rev
        (by decide) h
    · exact append_ne_of_last_ne _ _ _ _ _ _ _ _ hdiff_rev hout_rev
        (by decide) h
    · exact hname (append_suffix_cancel _ _ _ h)
    · have hcan := append_suffix_cancel t.name (dir ++ "/".data ++ u.name)
        (".diff".data) h
      exact ht (hcan ▸ memslash u.name)
    · exact hname (append_suffix_cancel _ _ _ h)
    · exact append_ne_of_last_ne _ _ _ _ _ _ _ _ hraw_rev hout_rev
        (by decide) h
    · exact append_ne_of_last_ne _ _ _ _ _ _ _ _ hraw_rev hdiff_rev
        (by decide) h
    · exact append_ne_of_last_ne _ _ _ _ _ _ _ _ hraw_rev hdiff_rev
        (by decide) h
    · exact append_ne_of_last_ne _ _ _ _ _ _ _ _ hout_rev hraw_rev
        (by decide) h
    · exact hname (append_suffix_cancel _ _ _ h)
    · exact append_ne_of_last_ne _ _ _ _ _ _ _ _ hout_rev hdiff_rev
        (by decide) h
    · exact append_ne_of_last_ne _ _ _ _ _ _ _ _ hout_rev hdiff_rev
        (by decide) h
    · exact append_ne_of_last_ne _ _ _ _ _ _ _ _ hdiff_rev hraw_rev
        (by decide) h
    · exact append_ne_of_last_ne _ _ _ _ _ _ _ _ hdiff_rev hout_rev
        (by decide) h
    · have hcan := append_suffix_cancel (dir ++ "/".data ++ t.name) u.name
        (".diff".data) h
      exact hu (hcan ▸ memslash t.name)
    · have hcan := append_suffix_cancel (dir ++ "/".data ++ t.name)
        (dir ++ "/".data ++ u.name) (".diff".data) h
      exact hname (List.append_cancel_left hcan)

/-! ## Claim C4: the time cap -/

theorem recordIteration_length (t : TestInfo) (ok : Bool) (now : Int) :
    (recordIteration t ok now).iterations.length = t.iterations.length := by
  simp [recordIteration, updateAt_length]

theorem recordIteration_currIter (t : TestInfo) (ok : Bool) (now : Int) :
    (recordIteration t ok now).currIter = t.currIter := rfl

/-- C4: after any run verdict (`testRunError` or `testRunSuccess`) for a
test with a positive time cap, if the sum of the recorded iteration
durations — including the one just recorded — exceeds the cap, the test
resolves and no further run is launched, even if iterations remain;
otherwise, if iterations remain, the next run is launched and the test
stays unresolved. -/
theorem C4_timeCap (m : Model) (i : Nat) (t : TestInfo) (ok : Bool) (now : Int)
    (hget : m.testCases.get? i = some t) (hcap : 0 < m.timeCap)
    (hres : t.resolved = false) :
    ∃ t', (update m (if ok then .testRunSuccess i else .testRunError i)
             now).1.testCases.get? i = some t' ∧
      (timeElapsed (recordIteration t ok now) > m.timeCap →
        t'.resolved = true ∧
        ∀ j, PendingOp.run j ∉
          (update m (if ok then .testRunSuccess i else .testRunError i) now).2) ∧
      (timeElapsed (recordIteration t ok now) ≤ m.timeCap →
        (t.currIter : Int) < (t.iterations.length : Int) - 1 →
        t'.resolved = false ∧
        PendingOp.run i ∈
          (update m (if ok then .testRunSuccess i else .testRunError i) now).2) := by
  have hrl := recordIteration_length t ok now
  cases ok
  · simp only [Bool.false_eq_true, if_false, update, runStep, hget]
    split
    case isTrue hbr =>
      refine ⟨_, by rw [updateAt_get?_self, hget]; rfl, ?_, ?_⟩
      · intro _
        exact ⟨rfl, by intro j hj; simp at hj⟩
      · intro hle hlt
        exfalso
        rcases hbr with hbr | hbr
        · have h1 : ((recordIteration t false now).currIter : Int) =
              (t.currIter : Int) := rfl
          have h2 : ((recordIteration t false now).iterations.length : Int) =
              (t.iterations.length : Int) := by rw [hrl]
          rw [show ({ recordIteration t false now with
                state := TestState.failure } : TestInfo).currIter =
              (recordIteration t false now).currIter from rfl] at hbr
          omega
        · exact absurd hbr (not_lt.mpr hle)
    case isFalse hbr =>
      refine ⟨_, by rw [updateAt_get?_self, hget]; rfl, ?_, ?_⟩
      · intro hgt
        exact absurd (Or.inr hgt) hbr
      · intro hle hlt
        refine ⟨hres, by simp⟩
  · simp only [if_true, update, runStep, hget]
    split
    case isTrue hbr =>
      refine ⟨_, by rw [updateAt_get?_self, hget]; rfl, ?_, ?_⟩
      · intro _
        constructor
        · split <;> rfl
        · intro j hj
          simp at hj
      · intro hle hlt
        exfalso
        rcases hbr with hbr | hbr
        · have h2 : ((recordIteration t true now).iterations.length : Int) =
              (t.iterations.length : Int) := by rw [hrl]
          have h1 : ((recordIteration t true now).currIter : Int) =
              (t.currIter : Int) := rfl
          omega
        · exact absurd hbr (not_lt.mpr hle)
    case isFalse hbr =>
      refine ⟨_, by rw [updateAt_get?_self, hget]; rfl, ?_, ?_⟩
      · intro hgt
        exact absurd (Or.inr hgt) hbr
      · intro hle hlt
        refine ⟨hres, by simp⟩

def c4Test : TestInfo :=
  { state := .running, running := true,
    iterations := [{ startTime := 0 }, { startTime := 0 }] }

def c4Model : Model :=
  { testCases := [c4Test], maxThreads := 1, timeCap := 100 }

theorem C4_timeCap_witness :
    c4Model.testCases.get? 0 = some c4Test ∧
    (0 : Int) < c4Model.timeCap ∧ c4Test.resolved = false ∧
    (∃ t', (update c4Model (if true then .testRunSuccess 0 else .testRunError 0)
             7).1.testCases.get? 0 = some t' ∧
      (timeElapsed (recordIteration c4Test true 7) > c4Model.timeCap →
        t'.resolved = true ∧
        ∀ j, PendingOp.run j ∉
          (update c4Model (if true then .testRunSuccess 0 else .testRunError 0) 7).2) ∧
      (timeElapsed (recordIteration c4Test true 7) ≤ c4Model.timeCap →
        (c4Test.currIter : Int) < (c4Test.iterations.length : Int) - 1 →
        t'.resolved = false ∧
        PendingOp.run 0 ∈
          (update c4Model (if true then .testRunSuccess 0 else .testRunError 0) 7).2)) :=
  ⟨rfl, by decide, rfl,
   C4_timeCap c4Model 0 c4Test true 7 rfl (by decide) rfl⟩

theorem threadsLeft_foldl (l : List TestInfo) (acc : Int) :
    l.foldl (fun tl t => if t.running then tl - 1 else tl) acc =
      acc - ((l.filter (·.running)).length : Int) := by
  induction l generalizing acc with
  | nil => simp
  | cons x xs ih =>
    by_cases h : x.running = true
    · rw [List.foldl_cons, if_pos h, ih, List.filter_cons, if_pos (by simp [h])]
      simp only [List.length_cons]
      push_cast
      omega
    · rw [List.foldl_cons, if_neg h, ih, List.filter_cons, if_neg (by simp [h])]

theorem threadsLeftInit_eq (m : Model) :
    threadsLeftInit m = m.maxThreads - (countRunning m.testCases : Int) := by
  unfold threadsLeftInit countRunning
  exact threadsLeft_foldl m.testCases m.maxThreads

theorem tryStartLoop_length (ts : List TestInfo) (i : Nat) (tl : Int)
    (h : 1 ≤ tl) : ((tryStartLoop ts i tl).length : Int) ≤ tl := by
  induction ts generalizing i tl with
  | nil =>
    simp only [tryStartLoop, List.length_nil]
    omega
  | cons t rest ih =>
    unfold tryStartLoop
    by_cases hw : t.state = .waiting
    · rw [if_pos hw]
      by_cases hz : tl - 1 = 0
      · rw [if_pos hz]
        simp only [List.length_singleton]
        omega
      · rw [if_neg hz]
        have h1 : 1 ≤ tl - 1 := by omega
        have := ih (i + 1) (tl - 1) h1
        simp only [List.length_cons]
        push_cast at this ⊢
        omega
    · rw [if_neg hw]
      have hz : ¬ tl = 0 := by omega
      rw [if_neg hz]
      exact ih (i + 1) tl h

theorem tryStartLoop_mem (ts : List TestInfo) (i : Nat) (tl : Int) :
    ∀ j ∈ tryStartLoop ts i tl, i ≤ j ∧
      ∃ t, ts.get? (j - i) = some t ∧ t.state = .waiting := by
  induction ts generalizing i tl with
  | nil =>
    intro j hj
    simp [tryStartLoop] at hj
  | cons t rest ih =>
    intro j hj
    unfold tryStartLoop at hj
    by_cases hw : t.state = .waiting
    · rw [if_pos hw] at hj
      by_cases hz : tl - 1 = 0
      · rw [if_pos hz] at hj
        simp only [List.mem_singleton] at hj
        subst hj
        exact ⟨le_rfl, t, by simp, hw⟩
      · rw [if_neg hz] at hj
        rcases List.mem_cons.mp hj with rfl | hj'
        · exact ⟨le_rfl, t, by simp, hw⟩
        · obtain ⟨hij, t', hget, hwt⟩ := ih (i + 1) (tl - 1) j hj'
          refine ⟨by omega, t', ?_, hwt⟩
          have hji : j - i = (j - (i + 1)) + 1 := by omega
          rw [hji]
          simpa using hget
    · rw [if_neg hw] at hj
      by_cases hz : tl = 0
      · rw [if_pos hz] at hj
        simp at hj
      · rw [if_neg hz] at hj
        obtain ⟨hij, t', hget, hwt⟩ := ih (i + 1) tl j hj
        refine ⟨by omega, t', ?_, hwt⟩
        have hji : j - i = (j - (i + 1)) + 1 := by omega
        rw [hji]
        simpa using hget

theorem tryStartLoop_sorted (ts : List TestInfo) (i : Nat) (tl : Int) :
    (tryStartLoop ts i tl).Pairwise (· < ·) := by
  induction ts generalizing i tl with
  | nil => simp [tryStartLoop]
  | cons t rest ih =>
    unfold tryStartLoop
    by_cases hw : t.state = .waiting
    · rw [if_pos hw]
      by_cases hz : tl - 1 = 0
      · rw [if_pos hz]
        simp
      · rw [if_neg hz]
        refine List.Pairwise.cons ?_ (ih (i + 1) (tl - 1))
        intro j hj
        have := (tryStartLoop_mem rest (i + 1) (tl - 1) j hj).1
        omega
    · rw [if_neg hw]
      by_cases hz : tl = 0
      · rw [if_pos hz]
        simp
      · rw [if_neg hz]
        exact ih (i + 1) tl

theorem countRunning_cons (x : TestInfo) (xs : List TestInfo) :
    countRunning (x :: xs) = (if x.running then 1 else 0) + countRunning xs := by
  by_cases h : x.running = true <;>
    simp [countRunning, List.filter_cons, h, Nat.add_comm]

theorem countRunning_updateAt_le (ts : List TestInfo) (j : Nat)
    (f : TestInfo → TestInfo) :
    countRunning (updateAt ts j f) ≤ countRunning ts + 1 := by
  induction ts generalizing j with
  | nil => simp [updateAt]
  | cons x xs ih =>
    cases j with
    | zero =>
      simp only [updateAt, countRunning_cons]
      by_cases h : (f x).running = true <;> by_cases h2 : x.running = true <;>
        simp [h, h2] <;> omega
    | succ n =>
      simp only [updateAt, countRunning_cons]
      have := ih n
      omega

theorem countRunning_admit_le (ids : List Nat) (ts : List TestInfo) :
    countRunning (ids.foldl (fun ts j => updateAt ts j
      (fun t => { t with state := .building, running := true })) ts) ≤
      countRunning ts + ids.length := by
  induction ids generalizing ts with
  | nil => simp
  | cons j js ih =>
    rw [List.foldl_cons]
    have h1 := ih (updateAt ts j
      (fun t => { t with state := .building, running := true }))
    have h2 := countRunning_updateAt_le ts j
      (fun t => { t with state := .building, running := true })
    simp only [List.length_cons]
    omega


/-! ## Claim C2: no transition after resolution

The orchestration loop is modelled as a transition system: a state holds
the model plus the multiset of in-flight asynchronous operations.  A
step removes one pending operation and processes its completion message
through `update` (for a scheduler pass, computing the admission list
from the current model and delivering it in the same step — the
serialized reading of the single-writer discipline of spec §5); the
operations the handler spawns become pending.  Build and run outcomes
and the wall-clock are nondeterministic. -/

structure Sys where
  m : Model
  pend : List PendingOp
deriving DecidableEq, Repr

inductive Step : Sys → Sys → Prop
  | sched (m : Model) (l₁ l₂ : List PendingOp) (now : Int) :
      Step ⟨m, l₁ ++ PendingOp.sched :: l₂⟩
        ⟨(update m (.buildTestMsg (tryStartExecutors m)) now).1,
         (l₁ ++ l₂) ++ (update m (.buildTestMsg (tryStartExecutors m)) now).2⟩
  | buildDone (m : Model) (l₁ l₂ : List PendingOp) (i : Nat) (ok : Bool) (now : Int) :
      Step ⟨m, l₁ ++ PendingOp.build i :: l₂⟩
        ⟨(update m (if ok then .testBuildSuccess i else .testBuildErr i) now).1,
         (l₁ ++ l₂) ++
           (update m (if ok then .testBuildSuccess i else .testBuildErr i) now).2⟩
  | runDone (m : Model) (l₁ l₂ : List PendingOp) (i : Nat) (ok : Bool) (now : Int) :
      Step ⟨m, l₁ ++ PendingOp.run i :: l₂⟩
        ⟨(update m (if ok then .testRunSuccess i else .testRunError i) now).1,
         (l₁ ++ l₂) ++
           (update m (if ok then .testRunSuccess i else .testRunError i) now).2⟩

/-- The shape `initialModel` (src/main.go:96-117) gives every test:
waiting, not running, not resolved, at iteration 0, with the configured
number `k` of iteration slots. -/
def initTestInfo (k : Nat) (t : TestInfo) : Prop :=
  t.state = .waiting ∧ t.running = false ∧ t.resolved = false ∧
  t.currIter = 0 ∧ t.iterations.length = k

/-- The system state after the one-time dependency build succeeds: all
tests in their initial shape and exactly one scheduler pass pending
(the `startBuildingTests` handler, src/main.go:169-170). -/
def InitSys (k : Nat) (s : Sys) : Prop :=
  (∀ t ∈ s.m.testCases, initTestInfo k t) ∧ s.pend = [PendingOp.sched]

def Reach (k : Nat) (s : Sys) : Prop :=
  ∃ s₀, InitSys k s₀ ∧ Relation.ReflTransGen Step s₀ s

/-- Whether a pending operation is a build or run belonging to test `i`. -/
def opOn (i : Nat) : PendingOp → Bool
  | .sched => false
  | .build j => j == i
  | .run j => j == i

/-- The number of in-flight build/run operations of test `i`. -/
def opsOn (i : Nat) (pend : List PendingOp) : Nat :=
  (pend.filter (opOn i)).length

/-- The inductive invariant of the serialized orchestration loop. -/
structure Inv (k : Nat) (s : Sys) : Prop where
  kpos : 1 ≤ k
  buildInv : ∀ i, PendingOp.build i ∈ s.pend →
    ∃ t, s.m.testCases.get? i = some t ∧ t.state = .building ∧
      t.running = true ∧ t.resolved = false ∧ t.currIter = 0 ∧
      t.iterations.length = k
  runInv : ∀ i, PendingOp.run i ∈ s.pend →
    ∃ t, s.m.testCases.get? i = some t ∧
      (t.state = .running ∨ t.state = .failure) ∧ t.running = true ∧
      t.resolved = false ∧ t.currIter < t.iterations.length
  waitInv : ∀ i t, s.m.testCases.get? i = some t → t.state = .waiting →
    t.running = false ∧ t.resolved = false ∧ t.currIter = 0 ∧
    t.iterations.length = k ∧ PendingOp.build i ∉ s.pend ∧
    PendingOp.run i ∉ s.pend
  uniq : ∀ i, opsOn i s.pend ≤ 1

theorem opOn_eq_true (i : Nat) (q : PendingOp) (h : opOn i q = true) :
    q = .build i ∨ q = .run i := by
  cases q with
  | sched => simp [opOn] at h
  | build j =>
    simp only [opOn, beq_iff_eq] at h
    subst h
    exact Or.inl rfl
  | run j =>
    simp only [opOn, beq_iff_eq] at h
    subst h
    exact Or.inr rfl

theorem opsOn_append (i : Nat) (a b : List PendingOp) :
    opsOn i (a ++ b) = opsOn i a + opsOn i b := by
  simp [opsOn, List.filter_append]

theorem opsOn_cons (i : Nat) (q : PendingOp) (l : List PendingOp) :
    opsOn i (q :: l) = (if opOn i q then 1 else 0) + opsOn i l := by
  by_cases h : opOn i q = true <;>
    simp [opsOn, List.filter_cons, h, Nat.add_comm]

theorem opsOn_pos_of_mem (i : Nat) (l : List PendingOp) (q : PendingOp)
    (hq : q ∈ l) (h : opOn i q = true) : 1 ≤ opsOn i l := by
  have : q ∈ l.filter (opOn i) := List.mem_filter.mpr ⟨hq, h⟩
  exact List.length_pos.mpr (List.ne_nil_of_mem this)

theorem opsOn_zero_not_mem (i : Nat) (l : List PendingOp)
    (h : opsOn i l = 0) : PendingOp.build i ∉ l ∧ PendingOp.run i ∉ l := by
  constructor
  · intro hmem
    have := opsOn_pos_of_mem i l _ hmem (by simp [opOn])
    omega
  · intro hmem
    have := opsOn_pos_of_mem i l _ hmem (by simp [opOn])
    omega

/-- Removing the delivered operation: if the whole pending list has at
most one operation on `i` and the removed one is on `i`, the remainder
has none. -/
theorem opsOn_remove (i : Nat) (l₁ l₂ : List PendingOp) (op : PendingOp)
    (hop : opOn i op = true)
    (h : opsOn i (l₁ ++ op :: l₂) ≤ 1) : opsOn i (l₁ ++ l₂) = 0 := by
  rw [opsOn_append] at h ⊢
  rw [opsOn_cons, if_pos hop] at h
  omega

theorem opsOn_middle_sched (i : Nat) (l₁ l₂ : List PendingOp) :
    opsOn i (l₁ ++ PendingOp.sched :: l₂) = opsOn i (l₁ ++ l₂) := by
  rw [opsOn_append, opsOn_append, opsOn_cons]
  simp [opOn]

theorem opsOn_middle_le (i : Nat) (l₁ l₂ : List PendingOp) (op : PendingOp) :
    opsOn i (l₁ ++ l₂) ≤ opsOn i (l₁ ++ op :: l₂) := by
  rw [opsOn_append, opsOn_append, opsOn_cons]
  omega

theorem mem_of_mem_middle {α : Type} (q op : α) (l₁ l₂ : List α)
    (h : q ∈ l₁ ++ l₂) : q ∈ l₁ ++ op :: l₂ := by
  rcases List.mem_append.mp h with h | h
  · exact List.mem_append.mpr (Or.inl h)
  · exact List.mem_append.mpr (Or.inr (List.mem_cons_of_mem _ h))

theorem opsOn_map_build (i : Nat) (ids : List Nat) (hnd : ids.Nodup) :
    opsOn i (ids.map PendingOp.build) ≤ 1 := by
  unfold opsOn
  rw [List.filter_map, List.length_map]
  have hpred : (opOn i ∘ PendingOp.build) = (fun j => j == i) := by
    funext j
    simp [Function.comp, opOn]
  rw [hpred]
  have hco := List.nodup_iff_count_le_one.mp hnd i
  rw [List.count_eq_countP, List.countP_eq_length_filter] at hco
  exact hco

theorem opsOn_map_build_zero (i : Nat) (ids : List Nat) (hni : i ∉ ids) :
    opsOn i (ids.map PendingOp.build) = 0 := by
  unfold opsOn
  rw [List.filter_map, List.length_map, List.length_eq_zero]
  rw [List.filter_eq_nil]
  intro j hj
  simp only [Function.comp, opOn, beq_iff_eq]
  intro hji
  exact hni (hji ▸ hj)

theorem foldl_updateAt_get?_ne (f : TestInfo → TestInfo) (ids : List Nat)
    (ts : List TestInfo) (j : Nat) (hj : j ∉ ids) :
    (ids.foldl (fun ts i => updateAt ts i f) ts).get? j = ts.get? j := by
  induction ids generalizing ts with
  | nil => rfl
  | cons i is ih =>
    simp only [List.mem_cons, not_or] at hj
    rw [List.foldl_cons, ih _ hj.2]
    exact updateAt_get?_ne _ _ _ _ (fun h => hj.1 h.symm)

theorem foldl_updateAt_get?_mem (f : TestInfo → TestInfo) (ids : List Nat)
    (ts : List TestInfo) (j : Nat) (hnd : ids.Nodup) (hj : j ∈ ids) :
    (ids.foldl (fun ts i => updateAt ts i f) ts).get? j = (ts.get? j).map f := by
  induction ids generalizing ts with
  | nil => simp at hj
  | cons i is ih =>
    rw [List.foldl_cons]
    rcases List.mem_cons.mp hj with rfl | hj'
    · rw [foldl_updateAt_get?_ne f is _ j (List.nodup_cons.mp hnd).1,
        updateAt_get?_self]
    · have hij : i ≠ j := fun h => (List.nodup_cons.mp hnd).1 (h ▸ hj')
      rw [ih _ (List.nodup_cons.mp hnd).2 hj', updateAt_get?_ne _ _ _ _ hij]

theorem opsOn_eq_zero (i : Nat) (l : List PendingOp)
    (hb : PendingOp.build i ∉ l) (hr : PendingOp.run i ∉ l) : opsOn i l = 0 := by
  unfold opsOn
  rw [List.length_eq_zero, List.filter_eq_nil_iff]
  intro q hq hopq
  rcases opOn_eq_true i q hopq with rfl | rfl
  · exact hb hq
  · exact hr hq

theorem opsOn_single_run_self (i : Nat) : opsOn i [PendingOp.run i] = 1 := by
  simp [opsOn, opOn]

theorem opsOn_single_run_ne (i j : Nat) (h : i ≠ j) :
    opsOn j [PendingOp.run i] = 0 := by
  simp [opsOn, opOn, h]

theorem opsOn_single_sched (i : Nat) : opsOn i [PendingOp.sched] = 0 := by
  simp [opsOn, opOn]

theorem Inv_init (k : Nat) (s : Sys) (hk : 1 ≤ k) (h : InitSys k s) :
    Inv k s := by
  obtain ⟨htests, hpend⟩ := h
  refine ⟨hk, ?_, ?_, ?_, ?_⟩
  · intro i hi
    rw [hpend] at hi
    simp at hi
  · intro i hi
    rw [hpend] at hi
    simp at hi
  · intro i t hget hw
    obtain ⟨_, hr, hres, hci, hlen⟩ := htests t (List.get?_mem hget)
    exact ⟨hr, hres, hci, hlen, by rw [hpend]; simp, by rw [hpend]; simp⟩
  · intro i
    rw [hpend, opsOn_single_sched i]
    exact Nat.zero_le 1

theorem runStep_get?_ne (m : Model) (i j : Nat) (ok : Bool) (now : Int)
    (hij : i ≠ j) :
    (runStep m i ok now).1.testCases.get? j = m.testCases.get? j := by
  cases ok
  · unfold runStep
    cases hg : m.testCases.get? i with
    | none => simp only [hg]
    | some t =>
      simp only [hg, Bool.false_eq_true, if_false]
      split <;> exact updateAt_get?_ne _ _ _ _ hij
  · unfold runStep
    cases hg : m.testCases.get? i with
    | none => simp only [hg]
    | some t =>
      simp only [hg, if_true]
      split <;> exact updateAt_get?_ne _ _ _ _ hij

/-- The two possible outcomes of a run-verdict step on a live test:
resolve (spawning a scheduler pass) or advance to the next iteration
(spawning the next run). -/
theorem runStep_shape (m : Model) (i : Nat) (t : TestInfo) (ok : Bool) (now : Int)
    (hget : m.testCases.get? i = some t)
    (hst : t.state = .running ∨ t.state = .failure)
    (hres : t.resolved = false) (hci : t.currIter < t.iterations.length) :
    ∃ t', (runStep m i ok now).1.testCases = updateAt m.testCases i (fun _ => t') ∧
      t'.state ≠ .waiting ∧
      ((runStep m i ok now).2 = [PendingOp.sched] ∨
       ((runStep m i ok now).2 = [PendingOp.run i] ∧
        (t'.state = .running ∨ t'.state = .failure) ∧
        t'.running = t.running ∧ t'.resolved = false ∧
        t'.currIter < t'.iterations.length)) := by
  have hrl := recordIteration_length t ok now
  cases ok
  · simp only [runStep, hget, Bool.false_eq_true, if_false]
    split
    case isTrue hbr =>
      exact ⟨_, rfl, (fun h => nomatch h), Or.inl rfl⟩
    case isFalse hbr =>
      refine ⟨_, rfl, (fun h => nomatch h),
        Or.inr ⟨rfl, Or.inr rfl, rfl, hres, ?_⟩⟩
      have hlen2 : (advanceIter ({ recordIteration t false now with
          state := TestState.failure } : TestInfo) now).iterations.length =
          t.iterations.length := by
        simp [advanceIter, updateAt_length, recordIteration_length]
      rw [hlen2]
      have hne : ¬ (((recordIteration t false now).currIter : Int) =
          (((recordIteration t false now).iterations.length : Int)) - 1) := by
        intro hcontra
        exact hbr (Or.inl hcontra)
      rw [recordIteration_currIter] at hne
      have h2 : ((recordIteration t false now).iterations.length : Int) =
          (t.iterations.length : Int) := by rw [hrl]
      rw [h2] at hne
      show ({ recordIteration t false now with
          state := TestState.failure } : TestInfo).currIter + 1 <
        t.iterations.length
      have hc : ({ recordIteration t false now with
          state := TestState.failure } : TestInfo).currIter = t.currIter := rfl
      rw [hc]
      omega
  · simp only [runStep, hget, if_true]
    split
    case isTrue hbr =>
      refine ⟨_, rfl, ?_, Or.inl rfl⟩
      split
      · exact fun h => nomatch h
      · intro h
        have hts : t.state = .waiting := h
        rcases hst with h1 | h1 <;> simp [h1] at hts
    case isFalse hbr =>
      refine ⟨_, rfl, ?_, Or.inr ⟨rfl, ?_, rfl, hres, ?_⟩⟩
      · intro h
        have hts : t.state = .waiting := h
        rcases hst with h1 | h1 <;> simp [h1] at hts
      · exact hst
      · have hlen2 : (advanceIter (recordIteration t true now)
            now).iterations.length = t.iterations.length := by
          simp [advanceIter, updateAt_length, recordIteration_length]
        rw [hlen2]
        have hne : ¬ (((recordIteration t true now).currIter : Int) =
            (((recordIteration t true now).iterations.length : Int)) - 1) := by
          intro hcontra
          exact hbr (Or.inl hcontra)
        rw [recordIteration_currIter] at hne
        have h2 : ((recordIteration t true now).iterations.length : Int) =
            (t.iterations.length : Int) := by rw [hrl]
        rw [h2] at hne
        show (recordIteration t true now).currIter + 1 < t.iterations.length
        rw [recordIteration_currIter]
        omega

theorem Inv_step_sched (k : Nat) (m : Model) (l₁ l₂ : List PendingOp) (now : Int)
    (hInv : Inv k ⟨m, l₁ ++ PendingOp.sched :: l₂⟩) :
    Inv k ⟨(update m (.buildTestMsg (tryStartExecutors m)) now).1,
           (l₁ ++ l₂) ++ (update m (.buildTestMsg (tryStartExecutors m)) now).2⟩ := by
  obtain ⟨hk, hbuild, hrun, hwait, huniq⟩ := hInv
  have hnd : (tryStartExecutors m).Nodup :=
    (tryStartLoop_sorted m.testCases 0 (threadsLeftInit m)).imp
      (fun h => Nat.ne_of_lt h)
  have hmem : ∀ j ∈ tryStartExecutors m,
      ∃ t, m.testCases.get? j = some t ∧ t.state = .waiting := by
    intro j hj
    obtain ⟨_, t, hget, hw⟩ :=
      tryStartLoop_mem m.testCases 0 (threadsLeftInit m) j hj
    exact ⟨t, by simpa using hget, hw⟩
  have hups : (update m (.buildTestMsg (tryStartExecutors m)) now).1.testCases =
      (tryStartExecutors m).foldl (fun ts j => updateAt ts j
        (fun t => { t with state := .building, running := true }))
        m.testCases := rfl
  have hops : (update m (.buildTestMsg (tryStartExecutors m)) now).2 =
      (tryStartExecutors m).map PendingOp.build := rfl
  have hnotin : ∀ j, j ∉ tryStartExecutors m →
      (update m (.buildTestMsg (tryStartExecutors m)) now).1.testCases.get? j =
        m.testCases.get? j := by
    intro j hj
    rw [hups]
    exact foldl_updateAt_get?_ne _ _ _ _ hj
  refine ⟨hk, ?_, ?_, ?_, ?_⟩
  · -- buildInv
    intro j hj
    rw [hops] at hj
    rcases List.mem_append.mp hj with hj | hj
    · -- an old build op: its test is Building, hence not admitted
      obtain ⟨t, hget, hstate, hrunt, hrest, hcit, hlent⟩ :=
        hbuild j (mem_of_mem_middle _ _ _ _ hj)
      have hnj : j ∉ tryStartExecutors m := by
        intro hin
        obtain ⟨tw, hgetw, hww⟩ := hmem j hin
        rw [hget] at hgetw
        cases hgetw
        rw [hstate] at hww
        cases hww
      exact ⟨t, by rw [hnotin j hnj]; exact hget, hstate, hrunt, hrest, hcit, hlent⟩
    · -- a freshly admitted test: it was Waiting
      simp only [List.mem_map, PendingOp.build.injEq, exists_eq_right] at hj
      obtain ⟨t, hget, hw⟩ := hmem j hj
      obtain ⟨hrt, hrest, hcit, hlent, _, _⟩ := hwait j t hget hw
      refine ⟨{ t with state := .building, running := true }, ?_, rfl, rfl,
        hrest, hcit, hlent⟩
      rw [hups, foldl_updateAt_get?_mem _ _ _ _ hnd hj, hget]
      rfl
  · -- runInv
    intro j hj
    rw [hops] at hj
    rcases List.mem_append.mp hj with hj | hj
    · obtain ⟨t, hget, hstate, hrunt, hrest, hcit⟩ :=
        hrun j (mem_of_mem_middle _ _ _ _ hj)
      have hnj : j ∉ tryStartExecutors m := by
        intro hin
        obtain ⟨tw, hgetw, hww⟩ := hmem j hin
        rw [hget] at hgetw
        cases hgetw
        rcases hstate with h | h <;> rw [h] at hww <;> cases hww
      exact ⟨t, by rw [hnotin j hnj]; exact hget, hstate, hrunt, hrest, hcit⟩
    · obtain ⟨a, _, hjj⟩ := List.mem_map.mp hj
      exact PendingOp.noConfusion hjj
  · -- waitInv
    intro j t hget hw
    by_cases hin : j ∈ tryStartExecutors m
    · exfalso
      obtain ⟨tw, hgetw, _⟩ := hmem j hin
      rw [hups, foldl_updateAt_get?_mem _ _ _ _ hnd hin, hgetw] at hget
      cases hget
      cases hw
    · rw [hnotin j hin] at hget
      obtain ⟨hrt, hrest, hcit, hlent, hnb, hnr⟩ := hwait j t hget hw
      refine ⟨hrt, hrest, hcit, hlent, ?_, ?_⟩
      · intro hmem'
        rw [hops] at hmem'
        rcases List.mem_append.mp hmem' with h | h
        · exact hnb (mem_of_mem_middle _ _ _ _ h)
        · simp only [List.mem_map, PendingOp.build.injEq, exists_eq_right] at h
          exact hin h
      · intro hmem'
        rw [hops] at hmem'
        rcases List.mem_append.mp hmem' with h | h
        · exact hnr (mem_of_mem_middle _ _ _ _ h)
        · obtain ⟨a, _, hjj⟩ := List.mem_map.mp h
          exact PendingOp.noConfusion hjj
  · -- uniq
    intro j
    simp only [hops]
    rw [opsOn_append]
    have hold : opsOn j (l₁ ++ l₂) = opsOn j (l₁ ++ PendingOp.sched :: l₂) :=
      (opsOn_middle_sched j l₁ l₂).symm
    by_cases hin : j ∈ tryStartExecutors m
    · obtain ⟨tw, hgetw, hww⟩ := hmem j hin
      obtain ⟨_, _, _, _, hnb, hnr⟩ := hwait j tw hgetw hww
      have h0 : opsOn j (l₁ ++ PendingOp.sched :: l₂) = 0 :=
        opsOn_eq_zero _ _ hnb hnr
      have hmap := opsOn_map_build j (tryStartExecutors m) hnd
      omega
    · have hmap := opsOn_map_build_zero j (tryStartExecutors m) hin
      have hu : opsOn j (l₁ ++ PendingOp.sched :: l₂) ≤ 1 := huniq j
      omega

theorem Inv_step_buildOk (k : Nat) (m : Model) (l₁ l₂ : List PendingOp)
    (i : Nat) (now : Int)
    (hInv : Inv k ⟨m, l₁ ++ PendingOp.build i :: l₂⟩) :
    Inv k ⟨(update m (.testBuildSuccess i) now).1,
           (l₁ ++ l₂) ++ (update m (.testBuildSuccess i) now).2⟩ := by
  obtain ⟨hk, hbuild, hrun, hwait, huniq⟩ := hInv
  obtain ⟨t, hget, hstate, hrunt, hrest, hcit, hlent⟩ :=
    hbuild i (List.mem_append.mpr (Or.inr (List.mem_cons_self _ _)))
  have hget2 : m.testCases.get? i = some t := hget
  have h0 : opsOn i (l₁ ++ l₂) = 0 :=
    opsOn_remove i l₁ l₂ _ (by simp [opOn]) (huniq i)
  obtain ⟨hnb2, hnr2⟩ := opsOn_zero_not_mem i _ h0
  have hops : (update m (.testBuildSuccess i) now).2 = [PendingOp.run i] := rfl
  have hgetn : (update m (.testBuildSuccess i) now).1.testCases.get? i =
      some { t with state := .running,
                    iterations := updateAt t.iterations t.currIter
                      (fun it => { it with startTime := now }) } := by
    show (updateAt m.testCases i _).get? i = _
    rw [updateAt_get?_self, hget2]
    rfl
  have hne : ∀ j, j ≠ i →
      (update m (.testBuildSuccess i) now).1.testCases.get? j =
        m.testCases.get? j := by
    intro j hj
    show (updateAt m.testCases i _).get? j = _
    exact updateAt_get?_ne _ _ _ _ (fun h => hj h.symm)
  refine ⟨hk, ?_, ?_, ?_, ?_⟩
  · intro j hj
    rw [hops] at hj
    rcases List.mem_append.mp hj with hj | hj
    · have hji : j ≠ i := fun h => hnb2 (h ▸ hj)
      obtain ⟨t', hget', h1, h2, h3, h4, h5⟩ :=
        hbuild j (mem_of_mem_middle _ _ _ _ hj)
      exact ⟨t', by rw [hne j hji]; exact hget', h1, h2, h3, h4, h5⟩
    · simp only [List.mem_singleton] at hj
      exact PendingOp.noConfusion hj
  · intro j hj
    rw [hops] at hj
    rcases List.mem_append.mp hj with hj | hj
    · have hji : j ≠ i := fun h => hnr2 (h ▸ hj)
      obtain ⟨t', hget', h1, h2, h3, h4⟩ :=
        hrun j (mem_of_mem_middle _ _ _ _ hj)
      exact ⟨t', by rw [hne j hji]; exact hget', h1, h2, h3, h4⟩
    · simp only [List.mem_singleton] at hj
      injection hj with hj
      subst hj
      refine ⟨_, hgetn, Or.inl rfl, hrunt, hrest, ?_⟩
      show t.currIter < (updateAt t.iterations t.currIter
        (fun it => { it with startTime := now })).length
      rw [updateAt_length, hcit, hlent]
      omega
  · intro j t' hget' hw
    by_cases hji : j = i
    · subst hji
      rw [hgetn] at hget'
      cases hget'
      cases hw
    · rw [hne j hji] at hget'
      obtain ⟨h1, h2, h3, h4, hnb, hnr⟩ := hwait j t' hget' hw
      refine ⟨h1, h2, h3, h4, ?_, ?_⟩
      · intro hmem'
        rw [hops] at hmem'
        rcases List.mem_append.mp hmem' with h | h
        · exact hnb (mem_of_mem_middle _ _ _ _ h)
        · simp only [List.mem_singleton] at h
          exact PendingOp.noConfusion h
      · intro hmem'
        rw [hops] at hmem'
        rcases List.mem_append.mp hmem' with h | h
        · exact hnr (mem_of_mem_middle _ _ _ _ h)
        · simp only [List.mem_singleton] at h
          injection h with h
          exact hji h
  · intro j
    rw [hops, opsOn_append]
    by_cases hji : j = i
    · subst hji
      rw [opsOn_single_run_self, h0]
    · rw [opsOn_single_run_ne i j (fun h => hji h.symm)]
      have hu : opsOn j (l₁ ++ PendingOp.build i :: l₂) ≤ 1 := huniq j
      have hle := opsOn_middle_le j l₁ l₂ (PendingOp.build i)
      omega

theorem Inv_step_buildErr (k : Nat) (m : Model) (l₁ l₂ : List PendingOp)
    (i : Nat) (now : Int)
    (hInv : Inv k ⟨m, l₁ ++ PendingOp.build i :: l₂⟩) :
    Inv k ⟨(update m (.testBuildErr i) now).1,
           (l₁ ++ l₂) ++ (update m (.testBuildErr i) now).2⟩ := by
  obtain ⟨hk, hbuild, hrun, hwait, huniq⟩ := hInv
  have h0 : opsOn i (l₁ ++ l₂) = 0 :=
    opsOn_remove i l₁ l₂ _ (by simp [opOn]) (huniq i)
  obtain ⟨hnb2, hnr2⟩ := opsOn_zero_not_mem i _ h0
  have hops : (update m (.testBuildErr i) now).2 = [PendingOp.sched] := rfl
  have hne : ∀ j, j ≠ i →
      (update m (.testBuildErr i) now).1.testCases.get? j =
        m.testCases.get? j := by
    intro j hj
    show (updateAt m.testCases i _).get? j = _
    exact updateAt_get?_ne _ _ _ _ (fun h => hj h.symm)
  have hgetn : ∀ t', (update m (.testBuildErr i) now).1.testCases.get? i =
      some t' → t'.state = .compileFailure := by
    intro t' hget'
    have : (updateAt m.testCases i
        (fun t => resolveTest { t with state := .compileFailure })).get? i =
        some t' := hget'
    rw [updateAt_get?_self] at this
    cases hg : m.testCases.get? i with
    | none => rw [hg] at this; cases this
    | some t0 =>
      rw [hg] at this
      cases this
      rfl
  refine ⟨hk, ?_, ?_, ?_, ?_⟩
  · intro j hj
    rw [hops] at hj
    rcases List.mem_append.mp hj with hj | hj
    · have hji : j ≠ i := fun h => hnb2 (h ▸ hj)
      obtain ⟨t', hget', h1, h2, h3, h4, h5⟩ :=
        hbuild j (mem_of_mem_middle _ _ _ _ hj)
      exact ⟨t', by rw [hne j hji]; exact hget', h1, h2, h3, h4, h5⟩
    · simp only [List.mem_singleton] at hj
      exact PendingOp.noConfusion hj
  · intro j hj
    rw [hops] at hj
    rcases List.mem_append.mp hj with hj | hj
    · have hji : j ≠ i := fun h => hnr2 (h ▸ hj)
      obtain ⟨t', hget', h1, h2, h3, h4⟩ :=
        hrun j (mem_of_mem_middle _ _ _ _ hj)
      exact ⟨t', by rw [hne j hji]; exact hget', h1, h2, h3, h4⟩
    · simp only [List.mem_singleton] at hj
      exact PendingOp.noConfusion hj
  · intro j t' hget' hw
    by_cases hji : j = i
    · subst hji
      rw [hgetn t' hget'] at hw
      cases hw
    · rw [hne j hji] at hget'
      obtain ⟨h1, h2, h3, h4, hnb, hnr⟩ := hwait j t' hget' hw
      refine ⟨h1, h2, h3, h4, ?_, ?_⟩
      · intro hmem'
        rw [hops] at hmem'
        rcases List.mem_append.mp hmem' with h | h
        · exact hnb (mem_of_mem_middle _ _ _ _ h)
        · simp only [List.mem_singleton] at h
          exact PendingOp.noConfusion h
      · intro hmem'
        rw [hops] at hmem'
        rcases List.mem_append.mp hmem' with h | h
        · exact hnr (mem_of_mem_middle _ _ _ _ h)
        · simp only [List.mem_singleton] at h
          exact PendingOp.noConfusion h
  · intro j
    rw [hops, opsOn_append, opsOn_single_sched]
    have hu : opsOn j (l₁ ++ PendingOp.build i :: l₂) ≤ 1 := huniq j
    have hle := opsOn_middle_le j l₁ l₂ (PendingOp.build i)
    omega

theorem Inv_step_run (k : Nat) (m : Model) (l₁ l₂ : List PendingOp)
    (i : Nat) (ok : Bool) (now : Int)
    (hInv : Inv k ⟨m, l₁ ++ PendingOp.run i :: l₂⟩) :
    Inv k ⟨(update m (if ok then .testRunSuccess i else .testRunError i) now).1,
           (l₁ ++ l₂) ++
             (update m (if ok then .testRunSuccess i else .testRunError i) now).2⟩ := by
  obtain ⟨hk, hbuild, hrun, hwait, huniq⟩ := hInv
  obtain ⟨t, hget, hstate, hrunt, hrest, hcit⟩ :=
    hrun i (List.mem_append.mpr (Or.inr (List.mem_cons_self _ _)))
  have hget2 : m.testCases.get? i = some t := hget
  have h0 : opsOn i (l₁ ++ l₂) = 0 :=
    opsOn_remove i l₁ l₂ _ (by simp [opOn]) (huniq i)
  obtain ⟨hnb2, hnr2⟩ := opsOn_zero_not_mem i _ h0
  have hupd : update m (if ok then Msg.testRunSuccess i else Msg.testRunError i)
      now = runStep m i ok now := by
    cases ok <;> rfl
  obtain ⟨t', hts, htw, hbranch⟩ :=
    runStep_shape m i t ok now hget2 hstate hrest hcit
  have hgetn : (runStep m i ok now).1.testCases.get? i = some t' := by
    rw [hts, updateAt_get?_self, hget2]
    rfl
  have hne : ∀ j, j ≠ i →
      (runStep m i ok now).1.testCases.get? j = m.testCases.get? j :=
    fun j hj => runStep_get?_ne m i j ok now (fun h => hj h.symm)
  rw [hupd]
  rcases hbranch with hsched | ⟨hrunops, hst', hrn', hres', hci'⟩
  · refine ⟨hk, ?_, ?_, ?_, ?_⟩
    · intro j hj
      rw [hsched] at hj
      rcases List.mem_append.mp hj with hj | hj
      · have hji : j ≠ i := fun h => hnb2 (h ▸ hj)
        obtain ⟨t2, hget', h1, h2, h3, h4, h5⟩ :=
          hbuild j (mem_of_mem_middle _ _ _ _ hj)
        exact ⟨t2, by rw [hne j hji]; exact hget', h1, h2, h3, h4, h5⟩
      · simp only [List.mem_singleton] at hj
        exact PendingOp.noConfusion hj
    · intro j hj
      rw [hsched] at hj
      rcases List.mem_append.mp hj with hj | hj
      · have hji : j ≠ i := fun h => hnr2 (h ▸ hj)
        obtain ⟨t2, hget', h1, h2, h3, h4⟩ :=
          hrun j (mem_of_mem_middle _ _ _ _ hj)
        exact ⟨t2, by rw [hne j hji]; exact hget', h1, h2, h3, h4⟩
      · simp only [List.mem_singleton] at hj
        exact PendingOp.noConfusion hj
    · intro j t2 hget' hw
      by_cases hji : j = i
      · subst hji
        rw [hgetn] at hget'
        cases hget'
        exact absurd hw htw
      · rw [hne j hji] at hget'
        obtain ⟨h1, h2, h3, h4, hnb, hnr⟩ := hwait j t2 hget' hw
        refine ⟨h1, h2, h3, h4, ?_, ?_⟩
        · intro hmem'
          rw [hsched] at hmem'
          rcases List.mem_append.mp hmem' with h | h
          · exact hnb (mem_of_mem_middle _ _ _ _ h)
          · simp only [List.mem_singleton] at h
            exact PendingOp.noConfusion h
        · intro hmem'
          rw [hsched] at hmem'
          rcases List.mem_append.mp hmem' with h | h
          · exact hnr (mem_of_mem_middle _ _ _ _ h)
          · simp only [List.mem_singleton] at h
            exact PendingOp.noConfusion h
    · intro j
      rw [hsched, opsOn_append, opsOn_single_sched]
      have hu : opsOn j (l₁ ++ PendingOp.run i :: l₂) ≤ 1 := huniq j
      have hle := opsOn_middle_le j l₁ l₂ (PendingOp.run i)
      omega
  · refine ⟨hk, ?_, ?_, ?_, ?_⟩
    · intro j hj
      rw [hrunops] at hj
      rcases List.mem_append.mp hj with hj | hj
      · have hji : j ≠ i := fun h => hnb2 (h ▸ hj)
        obtain ⟨t2, hget', h1, h2, h3, h4, h5⟩ :=
          hbuild j (mem_of_mem_middle _ _ _ _ hj)
        exact ⟨t2, by rw [hne j hji]; exact hget', h1, h2, h3, h4, h5⟩
      · simp only [List.mem_singleton] at hj
        exact PendingOp.noConfusion hj
    · intro j hj
      rw [hrunops] at hj
      rcases List.mem_append.mp hj with hj | hj
      · have hji : j ≠ i := fun h => hnr2 (h ▸ hj)
        obtain ⟨t2, hget', h1, h2, h3, h4⟩ :=
          hrun j (mem_of_mem_middle _ _ _ _ hj)
        exact ⟨t2, by rw [hne j hji]; exact hget', h1, h2, h3, h4⟩
      · simp only [List.mem_singleton] at hj
        injection hj with hj
        subst hj
        exact ⟨t', hgetn, hst', hrn'.trans hrunt, hres', hci'⟩
    · intro j t2 hget' hw
      by_cases hji : j = i
      · subst hji
        rw [hgetn] at hget'
        cases hget'
        exact absurd hw htw
      · rw [hne j hji] at hget'
        obtain ⟨h1, h2, h3, h4, hnb, hnr⟩ := hwait j t2 hget' hw
        refine ⟨h1, h2, h3, h4, ?_, ?_⟩
        · intro hmem'
          rw [hrunops] at hmem'
          rcases List.mem_append.mp hmem' with h | h
          · exact hnb (mem_of_mem_middle _ _ _ _ h)
          · simp only [List.mem_singleton] at h
            exact PendingOp.noConfusion h
        · intro hmem'
          rw [hrunops] at hmem'
          rcases List.mem_append.mp hmem' with h | h
          · exact hnr (mem_of_mem_middle _ _ _ _ h)
          · simp only [List.mem_singleton] at h
            injection h with h
            exact hji h
    · intro j
      rw [hrunops, opsOn_append]
      by_cases hji : j = i
      · subst hji
        rw [opsOn_single_run_self, h0]
      · rw [opsOn_single_run_ne i j (fun h => hji h.symm)]
        have hu : opsOn j (l₁ ++ PendingOp.run i :: l₂) ≤ 1 := huniq j
        have hle := opsOn_middle_le j l₁ l₂ (PendingOp.run i)
        omega

theorem Inv_preserved (k : Nat) (s s' : Sys) (hInv : Inv k s)
    (hstep : Step s s') : Inv k s' := by
  cases hstep with
  | sched m l₁ l₂ now => exact Inv_step_sched k m l₁ l₂ now hInv
  | buildDone m l₁ l₂ i ok now =>
    cases ok
    · exact Inv_step_buildErr k m l₁ l₂ i now hInv
    · exact Inv_step_buildOk k m l₁ l₂ i now hInv
  | runDone m l₁ l₂ i ok now => exact Inv_step_run k m l₁ l₂ i ok now hInv

theorem Reach_Inv (k : Nat) (s : Sys) (hk : 1 ≤ k) (h : Reach k s) :
    Inv k s := by
  obtain ⟨s₀, hinit, htrans⟩ := h
  induction htrans with
  | refl => exact Inv_init k s₀ hk hinit
  | tail h1 h2 ih => exact Inv_preserved k _ _ ih h2

theorem step_preserves_resolved (k : Nat) (s s' : Sys) (hInv : Inv k s)
    (hstep : Step s s') :
    ∀ i t, s.m.testCases.get? i = some t → t.resolved = true →
      s'.m.testCases.get? i = some t := by
  obtain ⟨hk, hbuild, hrun, hwait, huniq⟩ := hInv
  cases hstep with
  | sched m l₁ l₂ now =>
    intro j t hget hres
    have hget' : m.testCases.get? j = some t := hget
    have hmem : ∀ j' ∈ tryStartExecutors m,
        ∃ tw, m.testCases.get? j' = some tw ∧ tw.state = .waiting := by
      intro j' hj'
      obtain ⟨_, tw, hgetw, hww⟩ :=
        tryStartLoop_mem m.testCases 0 (threadsLeftInit m) j' hj'
      exact ⟨tw, by simpa using hgetw, hww⟩
    by_cases hin : j ∈ tryStartExecutors m
    · exfalso
      obtain ⟨tw, hgetw, hww⟩ := hmem j hin
      rw [hget'] at hgetw
      cases hgetw
      obtain ⟨_, hres2, _, _, _, _⟩ := hwait j t hget' hww
      rw [hres2] at hres
      cases hres
    · show ((tryStartExecutors m).foldl (fun ts j => updateAt ts j
          (fun t => { t with state := .building, running := true }))
          m.testCases).get? j = some t
      rw [foldl_updateAt_get?_ne _ _ _ _ hin]
      exact hget'
  | buildDone m l₁ l₂ i ok now =>
    intro j t hget hres
    obtain ⟨tb, hgetb, _, _, hresb, _, _⟩ :=
      hbuild i (List.mem_append.mpr (Or.inr (List.mem_cons_self _ _)))
    have hji : j ≠ i := by
      intro h
      subst h
      have : m.testCases.get? j = some t := hget
      rw [this] at hgetb
      cases hgetb
      rw [hresb] at hres
      cases hres
    have herr : (update m (.testBuildErr i) now).1.testCases.get? j =
        m.testCases.get? j := by
      show (updateAt m.testCases i _).get? j = _
      exact updateAt_get?_ne _ _ _ _ (fun h => hji h.symm)
    have hsuc : (update m (.testBuildSuccess i) now).1.testCases.get? j =
        m.testCases.get? j := by
      show (updateAt m.testCases i _).get? j = _
      exact updateAt_get?_ne _ _ _ _ (fun h => hji h.symm)
    cases ok
    · exact herr.trans hget
    · exact hsuc.trans hget
  | runDone m l₁ l₂ i ok now =>
    intro j t hget hres
    obtain ⟨tr, hgetr, _, _, hresr, _⟩ :=
      hrun i (List.mem_append.mpr (Or.inr (List.mem_cons_self _ _)))
    have hji : j ≠ i := by
      intro h
      subst h
      have : m.testCases.get? j = some t := hget
      rw [this] at hgetr
      cases hgetr
      rw [hresr] at hres
      cases hres
    have h1 : (runStep m i ok now).1.testCases.get? j = m.testCases.get? j :=
      runStep_get?_ne m i j ok now (fun h => hji h.symm)
    have hupd : update m (if ok then Msg.testRunSuccess i else Msg.testRunError i)
        now = runStep m i ok now := by
      cases ok <;> rfl
    show (update m (if ok then Msg.testRunSuccess i else Msg.testRunError i)
      now).1.testCases.get? j = some t
    rw [hupd, h1]
    exact hget

/-- A run task launched on a test whose snapshot was unresolved can
never hit the `log.Panicf` abort: the check (src/executors.go:232-234)
consults the `resolved` flag captured when the command was created, not
the live one. -/
theorem runTestCaseExec_no_panic (t : TestInfo) (dir : List Char)
    (env : RunEnv) (hres : t.resolved = false) :
    (runTestCaseExec t dir env).1 ≠ RunVerdict.panicked := by
  unfold runTestCaseExec
  by_cases h1 : env.rawCreateFail = true
  · rw [if_pos h1]; simp
  rw [if_neg h1]
  by_cases h2 : env.startCtxErr = true
  · rw [if_pos h2]; simp
  rw [if_neg h2]
  by_cases h3 : env.startErr = true
  · rw [if_pos h3]; simp
  rw [if_neg h3]
  by_cases h4 : env.copyErr = true
  · rw [if_pos h4]; simp
  rw [if_neg h4]
  by_cases h5 : env.rawOut.length = 0
  · rw [if_pos h5]; simp
  rw [if_neg h5]
  by_cases h6 : env.outWriteFail = true
  · rw [if_pos h6]; simp
  rw [if_neg h6]
  by_cases h7 : env.waitCtxErr = true
  · rw [if_pos h7]; simp
  rw [if_neg h7]
  by_cases h8 : isBadExit env.waitRes = true
  · rw [if_pos h8]; simp
  rw [if_neg h8]
  by_cases h9 : env.stderrOut.length > 0
  · rw [if_pos h9]; simp
  rw [if_neg h9]
  by_cases h10 : env.diffFails = true
  · rw [if_pos h10]
    by_cases h10a : env.diffWriteFail = true
    · rw [if_pos h10a]; simp
    rw [if_neg h10a]
    by_cases h10b : containsSub env.rawOut missingCodeMarker = true
    · rw [if_pos h10b]; simp
    · rw [if_neg h10b]; simp
  rw [if_neg h10]
  rw [if_neg (show ¬ t.resolved = true by simp [hres])]
  rcases hw : env.waitRes with _ | c | _
  · by_cases h12 : env.diffOut.length > 0 ∨
        containsSub env.rawOut ("fail".data) = true
    · simp [h12]
    · simp [h12]
  · by_cases h13 : c = 1
    · simp [h13]
    · simp [h13]
  · simp

def c2ResolvedTest : TestInfo :=
  { state := .success, running := false, resolved := true, currIter := 0,
    iterations := [{ passed := true, startTime := 0, timeSpanned := 5 }] }

def c2Model : Model :=
  { testCases := [c2ResolvedTest], maxThreads := 1, timeCap := 100 }

/-- C2 counterexample: delivering a late `testRunSuccess` for an
already-resolved test mutates it — the recorded duration of iteration 0
changes from 5 to `timeDiff 0 7 = 7` — and nothing aborts: the handler
(src/main.go:209-228) never consults `resolved`; it even re-resolves the
test and spawns another scheduler pass. -/
theorem C2_counterexample :
    c2ResolvedTest.resolved = true ∧
    (update c2Model (.testRunSuccess 0) 7).1.testCases ≠ c2Model.testCases ∧
    (update c2Model (.testRunSuccess 0) 7).2 = [PendingOp.sched] := by
  refine ⟨rfl, ?_, ?_⟩ <;> decide

def c2WaitTest : TestInfo := { state := .waiting, iterations := [{ }] }

def c2InitSys : Sys :=
  { m := { testCases := [c2WaitTest], maxThreads := 1, timeCap := 100 },
    pend := [PendingOp.sched] }

theorem c2InitSys_init : InitSys 1 c2InitSys := by
  constructor
  · intro t ht
    simp only [c2InitSys, List.mem_singleton] at ht
    subst ht
    exact ⟨rfl, rfl, rfl, rfl, rfl⟩
  · rfl

/-- C2 (amended): in serialized executions of the orchestration loop —
every build or run completion is delivered exactly once, for an
operation that was launched on an unresolved test, and a scheduler pass
computes and delivers its admissions atomically — once a test's
`resolved` flag is set no later step changes that test's record in any
way.  The handlers themselves do not detect late messages (see the
counterexample), and the run task's `log.Panicf` abort can only fire
when the snapshot taken at launch time was already resolved: a task
launched on an unresolved test never aborts. -/
theorem C2_resolvedFrozen (k : Nat) (s s' : Sys) (hk : 1 ≤ k)
    (hreach : Reach k s) (hstep : Step s s') :
    (∀ i t, s.m.testCases.get? i = some t → t.resolved = true →
       s'.m.testCases.get? i = some t) ∧
    (∀ t dir env, t.resolved = false →
       (runTestCaseExec t dir env).1 ≠ RunVerdict.panicked) :=
  ⟨step_preserves_resolved k s s' (Reach_Inv k s hk hreach) hstep,
   fun t dir env h => runTestCaseExec_no_panic t dir env h⟩

theorem C2_resolvedFrozen_witness :
    (1 : Nat) ≤ 1 ∧
    ((∀ i t, c2InitSys.m.testCases.get? i = some t → t.resolved = true →
        (Sys.mk (update c2InitSys.m
            (.buildTestMsg (tryStartExecutors c2InitSys.m)) 0).1
          (([] ++ []) ++ (update c2InitSys.m
            (.buildTestMsg (tryStartExecutors c2InitSys.m)) 0).2)).m.testCases.get? i =
          some t) ∧
     (∀ t dir env, t.resolved = false →
        (runTestCaseExec t dir env).1 ≠ RunVerdict.panicked)) :=
  ⟨le_rfl,
   C2_resolvedFrozen 1 c2InitSys _ le_rfl
     ⟨c2InitSys, c2InitSys_init, Relation.ReflTransGen.refl⟩
     (Step.sched c2InitSys.m [] [] 0)⟩

/-! ## Claim C3: early exit (spec-modelled) -/

/-- Modelled from the spec: the `earlyExit` continuation predicate.  The
repository README documents the `-e, --earlyexit` flag ("exit iterating
early if a test fails"), but the `model.Update` handler implementing it
is missing from the provided sources (src/main.go is the older v1.2.2
handler without the flag).  Following spec §4.3, iteration stops when
(a) `earlyExit` is enabled and the just-completed iteration failed, or
(b) the current iteration is the last configured one, or (c) a positive
time cap is configured and the cumulative recorded duration exceeds
it. -/
def specShouldStop (earlyExit passed : Bool) (currIter lastIter : Nat)
    (elapsed timeCap : Int) : Bool :=
  (earlyExit && !passed) || (currIter == lastIter) ||
  (decide (0 < timeCap) && decide (timeCap < elapsed))

/-- Modelled from the spec: the run-verdict step of the `earlyExit`-aware
orchestrator.  It records the verdict and duration on the current
iteration exactly as the v1.2.2 handler does, then applies the spec's
continuation policy: on stop, resolve the test (truncating `iterations`
to the attempts actually executed); otherwise advance to the next
iteration.  The second component reports whether a next run was
launched. -/
def specRunStep (earlyExit : Bool) (timeCap : Int) (t : TestInfo)
    (passed : Bool) (now : Int) : TestInfo × Bool :=
  let t1 := if passed then recordIteration t passed now
            else { recordIteration t passed now with state := .failure }
  if specShouldStop earlyExit passed t.currIter (t.iterations.length - 1)
      (timeElapsed (recordIteration t passed now)) timeCap then
    (resolveTest t1, false)
  else
    (advanceIter t1 now, true)

/-- C3 (spec-modelled): with `earlyExit = true`, a failing verdict on
iteration k < N stops the test immediately: no iteration k+1 is
launched, the test resolves, and at most k+1 recorded iterations
remain. -/
theorem C3_earlyExit (timeCap : Int) (t : TestInfo) (now : Int) (k : Nat)
    (hk : t.currIter = k) (hlt : k < t.iterations.length) :
    (specRunStep true timeCap t false now).2 = false ∧
    (specRunStep true timeCap t false now).1.resolved = true ∧
    (specRunStep true timeCap t false now).1.iterations.length ≤ k + 1 := by
  have hstop : specShouldStop true false t.currIter (t.iterations.length - 1)
      (timeElapsed (recordIteration t false now)) timeCap = true := by
    simp [specShouldStop]
  refine ⟨?_, ?_, ?_⟩
  · simp [specRunStep, hstop]
  · simp [specRunStep, hstop, resolveTest]
  · simp [specRunStep, hstop, resolveTest, List.length_take,
      recordIteration_length, recordIteration_currIter]
    omega

def c3Test : TestInfo :=
  { state := .running, running := true,
    iterations := [{ startTime := 0 }, { startTime := 0 }, { startTime := 0 }] }

theorem C3_earlyExit_witness :
    c3Test.currIter = 0 ∧ 0 < c3Test.iterations.length ∧
    ((specRunStep true 100 c3Test false 7).2 = false ∧
     (specRunStep true 100 c3Test false 7).1.resolved = true ∧
     (specRunStep true 100 c3Test false 7).1.iterations.length ≤ 0 + 1) :=
  ⟨rfl, by decide, C3_earlyExit 100 c3Test 7 0 rfl (by decide)⟩

/-! ## Claim C1: the scheduler and the concurrency bound

The loop of `tryStartExecutors` breaks only when its budget is *exactly*
zero after handling a test.  When the budget is already zero (or
negative) on entry and the first test scanned is `Waiting`, the budget
moves to −1 and never hits zero again, so every `Waiting` test is
admitted. -/

def c1Model : Model :=
  { testCases := [{ state := .waiting }, { running := true, state := .running }],
    maxThreads := 1 }

/-- C1 counterexample: with `maxThreads = 1`, test 0 waiting and test 1
running, `available = 1 − 1 = 0`, yet the scheduler admits test 0
instead of admitting none: the budget moves to −1 and the exit test
`threadsLeft == 0` never fires again. -/
theorem C1_counterexample :
    c1Model.maxThreads - (countRunning c1Model.testCases : Int) = 0 ∧
    tryStartExecutors c1Model = [0] := by
  constructor
  · decide
  · decide

/-- C1 (amended): whenever the scheduler runs with
`available = maxThreads − (count of running tests) ≥ 1` — which holds at
start-up and, given the bound, after every resolution, the only points
where the orchestrator invokes it — it admits only `Waiting` tests, in
strictly ascending id order, at most `available` of them, and applying
the resulting `buildTestMsg` admission keeps the number of running tests
at most `maxThreads`.  (With `available ≤ 0` and the lowest-id test
`Waiting` it instead admits every `Waiting` test, see the
counterexample.) -/
theorem C1_scheduler (m : Model) (now : Int)
    (h : 1 ≤ m.maxThreads - (countRunning m.testCases : Int)) :
    (tryStartExecutors m).Pairwise (· < ·) ∧
    (∀ j ∈ tryStartExecutors m,
      ∃ t, m.testCases.get? j = some t ∧ t.state = .waiting) ∧
    ((tryStartExecutors m).length : Int) ≤
      m.maxThreads - (countRunning m.testCases : Int) ∧
    (countRunning
        ((update m (.buildTestMsg (tryStartExecutors m)) now).1.testCases) : Int) ≤
      m.maxThreads := by
  have hlen : ((tryStartExecutors m).length : Int) ≤
      m.maxThreads - (countRunning m.testCases : Int) := by
    have h' : 1 ≤ threadsLeftInit m := by
      rw [threadsLeftInit_eq]
      exact h
    have hle := tryStartLoop_length m.testCases 0 (threadsLeftInit m) h'
    exact le_of_le_of_eq hle (threadsLeftInit_eq m)
  refine ⟨tryStartLoop_sorted _ _ _, ?_, hlen, ?_⟩
  · intro j hj
    obtain ⟨_, t, hget, hw⟩ := tryStartLoop_mem m.testCases 0 (threadsLeftInit m) j hj
    exact ⟨t, by simpa using hget, hw⟩
  · have hcount := countRunning_admit_le (tryStartExecutors m) m.testCases
    simp only [update] at hcount ⊢
    omega

def c1WitModel : Model := { testCases := [{ state := .waiting }], maxThreads := 1 }

theorem C1_scheduler_witness :
    (1 ≤ c1WitModel.maxThreads - (countRunning c1WitModel.testCases : Int)) ∧
    ((tryStartExecutors c1WitModel).Pairwise (· < ·) ∧
     (∀ j ∈ tryStartExecutors c1WitModel,
       ∃ t, c1WitModel.testCases.get? j = some t ∧ t.state = .waiting) ∧
     ((tryStartExecutors c1WitModel).length : Int) ≤
       c1WitModel.maxThreads - (countRunning c1WitModel.testCases : Int) ∧
     (countRunning
         ((update c1WitModel
            (.buildTestMsg (tryStartExecutors c1WitModel)) 0).1.testCases) : Int) ≤
       c1WitModel.maxThreads) :=
  ⟨by decide, C1_scheduler c1WitModel 0 (by decide)⟩

theorem C9_fileFrame_witness :
    (("t0".data : List Char) ≠ ("t1".data : List Char)) ∧
    ((∃ mkArgs, buildTestCaseEffects false { name := "t0".data } =
        [.removeFile (("t0".data : List Char) ++ ".diff".data),
         .execMake mkArgs]) ∧
     (∀ op ∈ (runTestCaseExec { name := "t0".data } ("proj".data) { }).2,
        ∀ p, op ≠ .removeFile p) ∧
     (∀ p ∈ touchedPaths
          (buildTestCaseEffects false { name := "t0".data } ++
           (runTestCaseExec { name := "t0".data } ("proj".data) { }).2),
        p ∉ outputFilesOf { name := "t1".data } ("proj".data))) :=
  ⟨by decide,
   C9_fileFrame { name := "t0".data } { name := "t1".data } ("proj".data)
     { } false (by decide) (by decide) (by decide)⟩

end Grunner
